import Mathlib

/-!
# Verification of the toytorrent specification against its source

This file gives a shallow embedding, in Lean, of the parts of the
toytorrent repository (a minimal BitTorrent client/tracker in Rust) that
its specification makes claims about, and proves or refutes each claim.

Conventions of the embedding:
* Rust byte strings (`&[u8]`, `Vec<u8>`, `Cow<[u8]>`) are `List Nat`,
  each entry a byte value.
* Machine integers are `Nat`/`Int` with explicit bounds (`2^64`, `2^127`)
  where the source performs checked conversions; wrapping casts are
  modelled with `% 2^32` and friends.
* Fallible Rust functions returning `Result`/`Option` are modelled with
  `Option` (the error payloads are strings not relevant to any claim) or
  with `Except` where the error variant matters.
* `HashMap`s are modelled as association lists kept sorted by key, the
  canonical representative of the unordered map; building a map from an
  iterator (`collect`) folds insertions left to right, so a later
  duplicate key overwrites an earlier one exactly as in Rust.
-/

/-! ## Bencode codec (src/src/bencode.rs)

`BencodeValue` mirrors the Rust enum of the same name.  A `Dict` is a
`HashMap<Cow<[u8]>, BencodeValue>` in Rust; here it is an association
list.  Every dict produced by the decoder is sorted by key with unique
keys (the canonical representative of the hash map), so Lean equality of
decoded values coincides with Rust `==` on `BencodeValue`.
-/

inductive BencodeValue where
  | Bytes : List Nat → BencodeValue
  | Integer : Int → BencodeValue
  | List : List BencodeValue → BencodeValue
  | Dict : List (List Nat × BencodeValue) → BencodeValue

/-- A byte string (`&[u8]` / `Vec<u8>` / `Cow<[u8]>`). -/
abbrev ByteStr : Type := List Nat

/-- A list of bencode values (used inside the `BencodeValue` namespace, where
the bare name `List` would otherwise refer to the constructor). -/
abbrev BVList : Type := List BencodeValue

/-- The entries of a bencode dict. -/
abbrev BVEntries : Type := List (List Nat × BencodeValue)

/-- A list of key / encoded-value pairs. -/
abbrev KVList : Type := List (List Nat × List Nat)

/-- Byte-wise lexicographic strict order on byte strings: the order used by
Rust's `Ord for [u8]`, by which `BencodeValue::encode` sorts dict keys. -/
def bytesLt : List Nat → List Nat → Bool
  | [], [] => false
  | [], _ :: _ => true
  | _ :: _, [] => false
  | a :: as, b :: bs => if a < b then true else if b < a then false else bytesLt as bs

/-- Fuel-driven worker for `natToDec` (structural recursion on the fuel keeps
the definition kernel-reducible). -/
def natToDecAux : Nat → Nat → List Nat
  | 0, _ => []
  | fuel + 1, n => if n < 10 then [48 + n] else natToDecAux fuel (n / 10) ++ [48 + n % 10]

/-- ASCII decimal digits of a natural number (the bytes of `n.to_string()`).
`n + 1` units of fuel always suffice since the argument at least halves. -/
def natToDec (n : Nat) : List Nat := natToDecAux (n + 1) n

/-- ASCII bytes of `i.to_string()` for a signed integer. -/
def intToDec (i : Int) : List Nat :=
  if i < 0 then 45 :: natToDec i.natAbs else natToDec i.toNat

/-- Insert one key/value pair into a key-sorted association list, keeping it
sorted and replacing the value if the key is already present.  This is the
`HashMap::insert` of the canonical (sorted) map representation. -/
def insertSorted (k : List Nat) (v : BencodeValue) :
    List (List Nat × BencodeValue) → List (List Nat × BencodeValue)
  | [] => [(k, v)]
  | (k', v') :: rest =>
    if bytesLt k' k then (k', v') :: insertSorted k v rest
    else if k' = k then (k, v) :: rest
    else (k, v) :: (k', v') :: rest

/-- `collect::<HashMap<_, _>>()` over a pair iterator: fold the pairs into the
(canonically sorted) map left to right; a repeated key's last occurrence wins,
as in Rust. -/
def toMap (ps : List (List Nat × BencodeValue)) : List (List Nat × BencodeValue) :=
  ps.foldl (fun m p => insertSorted p.1 p.2 m) []

/-- Insertion step of the key sort performed by `BencodeValue::encode` on a
dict (`key_values.sort_by(|(a, _), (b, _)| a.cmp(b))`).  The sort is applied
to pairs of a key and the already-encoded value: encoding an entry does not
depend on its position, so sorting entries and then encoding each (as the
source does) produces the same bytes as encoding each and then sorting. -/
def sortInsertKV (p : List Nat × List Nat) :
    List (List Nat × List Nat) → List (List Nat × List Nat)
  | [] => [p]
  | q :: rest => if bytesLt q.1 p.1 then q :: sortInsertKV p rest else p :: q :: rest

/-- The key sort performed by `BencodeValue::encode` on a dict's entries. -/
def sortKV (ps : List (List Nat × List Nat)) : List (List Nat × List Nat) :=
  ps.foldr sortInsertKV []

/-- Emit a dict's sorted entries: each key exactly as
`BencodeValue::Bytes(k).encode()`, followed by the encoded value. -/
def joinKV : List (List Nat × List Nat) → List Nat
  | [] => []
  | (k, ev) :: rest => (natToDec k.length ++ 58 :: k) ++ ev ++ joinKV rest

mutual

/-- `BencodeValue::encode`: byte strings as `<len>:<bytes>`, integers as
`i<decimal>e`, lists as `l...e`, dicts as `d...e` with entries sorted by raw
byte order of the keys. -/
def BencodeValue.encode : BencodeValue → ByteStr
  | .Bytes b => natToDec b.length ++ 58 :: b
  | .Integer i => 105 :: (intToDec i ++ [101])
  | .List l => 108 :: (BencodeValue.encodeElems l ++ [101])
  | .Dict d => 100 :: (joinKV (sortKV (BencodeValue.encodeEntries d)) ++ [101])

/-- Concatenated encodings of a list's elements. -/
def BencodeValue.encodeElems : BVList → ByteStr
  | [] => []
  | v :: vs => BencodeValue.encode v ++ BencodeValue.encodeElems vs

/-- Each dict entry's key paired with the encoding of its value. -/
def BencodeValue.encodeEntries : BVEntries → KVList
  | [] => []
  | (k, v) :: rest => (k, BencodeValue.encode v) :: BencodeValue.encodeEntries rest

end

/-- Is `c` an ASCII decimal digit? -/
def isDigit (c : Nat) : Bool := 48 ≤ c && c ≤ 57

/-- Split a maximal run of ASCII digits off the front of the input. -/
def takeDigits : List Nat → List Nat × List Nat
  | [] => ([], [])
  | c :: rest =>
    if isDigit c then
      let (ds, r) := takeDigits rest
      (c :: ds, r)
    else ([], c :: rest)

/-- Numeric value of a run of ASCII digits (the accumulator loop of nom's
decimal integer parsers). -/
def decVal (ds : List Nat) : Nat := ds.foldl (fun acc d => 10 * acc + (d - 48)) 0

/-- The `peek(not(pair(tag("0"), one_of("0123456789"))))` guard of
`parse_bytes`: does the input start with `0` followed by another digit? -/
def leadingZeroDigit : List Nat → Bool
  | 48 :: d :: _ => isDigit d
  | _ => false

/-- `parse_bytes`: `<u64 decimal length>:<bytes>`, rejecting a leading zero
before another digit (the `peek(not(tag("0"), one_of("0123456789")))` guard),
a length overflowing `u64`, and truncated data (`combinator::complete`). -/
def parse_bytes (input : List Nat) : Option (List Nat × List Nat) :=
  if leadingZeroDigit input then none
  else
    match takeDigits input with
    | ([], _) => none
    | (ds, rest) =>
      if decVal ds < 2 ^ 64 then
        match rest with
        | 58 :: rest2 =>
          if decVal ds ≤ rest2.length then
            some (rest2.take (decVal ds), rest2.drop (decVal ds))
          else none
        | _ => none
      else none

/-- The common body of `parse_integer`'s two `map_res` branches: a first digit
in `1..=9`, a run of digits read as `u128`, converted by `i128::try_from`
(hence a magnitude of at most `2^127 - 1`, for both signs), then the tag `e`.
A magnitude of at least `2^128` already fails the `u128` parse; both failures
are collapsed into `none`. -/
def parseMagnitude (input : List Nat) : Option (Nat × List Nat) :=
  match input with
  | c :: _ =>
    if 49 ≤ c && c ≤ 57 then
      match takeDigits input with
      | (ds, rest) =>
        if decVal ds ≤ 2 ^ 127 - 1 then
          match rest with
          | 101 :: rest2 => some (decVal ds, rest2)
          | _ => none
        else none
    else none
  | [] => none

/-- `parse_integer`: the literal tag `i0e`, or `i`, an optional `-`, a
magnitude with no leading zero, and `e`. -/
def parse_integer (input : List Nat) : Option (Int × List Nat) :=
  match input with
  | 105 :: rest =>
    match rest with
    | 48 :: 101 :: rest2 => some (0, rest2)
    | 45 :: rest2 => (parseMagnitude rest2).map (fun p => (-(p.1 : Int), p.2))
    | _ => (parseMagnitude rest).map (fun p => ((p.1 : Int), p.2))
  | _ => none

mutual

/-- `parse_once`: the four-way `alt`.  Each nom branch is committed by its
first byte (a digit for byte strings, `i`, `l`, `d`), so the alternation is
the dispatch on the head byte.  `fuel` bounds the recursion depth; the
top-level decoder supplies `input.length + 1`, which is always sufficient
because every recursive step consumes at least one byte. -/
def parse_once : Nat → List Nat → Option (BencodeValue × List Nat)
  | 0, _ => none
  | fuel + 1, input =>
    match input with
    | [] => none
    | c :: rest =>
      if isDigit c then (parse_bytes input).map (fun p => (.Bytes p.1, p.2))
      else if c = 105 then (parse_integer input).map (fun p => (.Integer p.1, p.2))
      else if c = 108 then (parseElems fuel rest).map (fun p => (.List p.1, p.2))
      else if c = 100 then (parsePairs fuel rest).map (fun p => (.Dict (toMap p.1), p.2))
      else none

/-- The `many_till(parse_once, tag("e"))` loop of `parse_list`: the closing
tag is tried first, exactly as `many_till` does. -/
def parseElems : Nat → List Nat → Option (List BencodeValue × List Nat)
  | 0, _ => none
  | fuel + 1, input =>
    match input with
    | 101 :: rest => some ([], rest)
    | _ =>
      match parse_once fuel input with
      | none => none
      | some (v, rest) =>
        match parseElems fuel rest with
        | none => none
        | some (vs, rest2) => some (v :: vs, rest2)

/-- The `many_till(pair(parse_bytes, parse_once), tag("e"))` loop of
`parse_dict`. -/
def parsePairs : Nat → List Nat → Option (List (List Nat × BencodeValue) × List Nat)
  | 0, _ => none
  | fuel + 1, input =>
    match input with
    | 101 :: rest => some ([], rest)
    | _ =>
      match parse_bytes input with
      | none => none
      | some (k, rest) =>
        match parse_once fuel rest with
        | none => none
        | some (v, rest2) =>
          match parsePairs fuel rest2 with
          | none => none
          | some (ps, rest3) => some ((k, v) :: ps, rest3)

end

/-- `BencodeValue::decode`: `all_consuming(parse_once)` — the whole input must
be consumed. -/
def BencodeValue.decode (input : ByteStr) : Option BencodeValue :=
  match parse_once (input.length + 1) input with
  | some (v, []) => some v
  | _ => none

/-- Does the input *not* begin with an ASCII digit? -/
def noDigitHead : List Nat → Bool
  | [] => true
  | c :: _ => !isDigit c

/-! ### Well-formedness of decoder-producible values

A value the decoder can produce has: byte-string and dict-key lengths
below `2^64` (the `u64` length parse), integer magnitudes of at most
`2^127 - 1` (`u128` parse followed by `i128::try_from`), and dicts in the
canonical representation — keys strictly ascending in raw byte order —
because `parse_dict` collects its pairs into a `HashMap`.
-/

/-- Is `k` strictly below the first key of `rest` (vacuously true for an empty
tail)? -/
def keyLtHead (k : List Nat) : BVEntries → Bool
  | [] => true
  | (k2, _) :: _ => bytesLt k k2

mutual

/-- Well-formedness (decoder-producibility shape) of a bencode value. -/
def wfBV : BencodeValue → Bool
  | .Bytes b => decide (b.length < 2 ^ 64)
  | .Integer i => decide (i.natAbs ≤ 2 ^ 127 - 1)
  | .List l => wfBVList l
  | .Dict d => wfBVDict d

/-- Well-formedness of each element of a list value. -/
def wfBVList : BVList → Bool
  | [] => true
  | v :: vs => wfBV v && wfBVList vs

/-- Well-formedness of a dict: bounded, strictly ascending keys and
well-formed values. -/
def wfBVDict : BVEntries → Bool
  | [] => true
  | (k, v) :: rest =>
    decide (k.length < 2 ^ 64) && wfBV v && keyLtHead k rest && wfBVDict rest

end

/-- Strictly ascending adjacent keys in a key/encoded-value list. -/
def kvSortedAdj : KVList → Bool
  | p :: q :: rest => bytesLt p.1 q.1 && kvSortedAdj (q :: rest)
  | _ => true

/-! ## SHA-1 (the `sha1` crate used by the metainfo loader)

A byte-level implementation of FIPS 180 SHA-1, written with structural
recursion throughout so concrete digests evaluate inside the kernel.
Words are `Nat`s reduced modulo `2^32` at every arithmetic step.
-/

/-- Big-endian bytes of `n` in a field `w` bytes wide. -/
def beBytes : Nat → Nat → List Nat
  | 0, _ => []
  | w + 1, n => ((n >>> (8 * w)) % 256) :: beBytes w n

/-- Rotate a 32-bit word left by `n`. -/
def rotl32 (n x : Nat) : Nat := (((x <<< n) % 2 ^ 32) ||| (x >>> (32 - n)))

/-- SHA-1 padding: `0x80`, zeros to 56 mod 64, and the 64-bit bit length. -/
def sha1Pad (msg : List Nat) : List Nat :=
  msg ++ 128 :: List.replicate ((119 - msg.length % 64) % 64) 0 ++ beBytes 8 (8 * msg.length)

/-- Pack bytes into big-endian 32-bit words. -/
def toWords : List Nat → List Nat
  | b0 :: b1 :: b2 :: b3 :: rest => (((b0 * 256 + b1) * 256 + b2) * 256 + b3) :: toWords rest
  | _ => []

/-- Extend the (reversed) message schedule by `f` words. -/
def sha1Extend : Nat → List Nat → List Nat
  | 0, rws => rws
  | f + 1, rws =>
    sha1Extend f
      (rotl32 1 (rws.getD 2 0 ^^^ rws.getD 7 0 ^^^ rws.getD 13 0 ^^^ rws.getD 15 0) :: rws)

/-- The 80 rounds of one SHA-1 compression, folding over the schedule. -/
def sha1Rounds : Nat → Nat × Nat × Nat × Nat × Nat → List Nat → Nat × Nat × Nat × Nat × Nat
  | _, st, [] => st
  | i, (a, b, c, d, e), w :: ws =>
    let fk : Nat × Nat :=
      if i < 20 then ((b &&& c) ||| (((2 ^ 32 - 1) ^^^ b) &&& d), 0x5A827999)
      else if i < 40 then (b ^^^ c ^^^ d, 0x6ED9EBA1)
      else if i < 60 then ((b &&& c) ||| (b &&& d) ||| (c &&& d), 0x8F1BBCDC)
      else (b ^^^ c ^^^ d, 0xCA62C1D6)
    sha1Rounds (i + 1) ((rotl32 5 a + fk.1 + e + fk.2 + w) % 2 ^ 32, a, rotl32 30 b, c, d) ws

/-- One SHA-1 compression of a 64-byte block into the running state. -/
def sha1Compress (h : Nat × Nat × Nat × Nat × Nat) (block : List Nat) :
    Nat × Nat × Nat × Nat × Nat :=
  let ws := (sha1Extend 64 (toWords block).reverse).reverse
  let r := sha1Rounds 0 h ws
  (((h.1 + r.1) % 2 ^ 32), ((h.2.1 + r.2.1) % 2 ^ 32), ((h.2.2.1 + r.2.2.1) % 2 ^ 32),
    ((h.2.2.2.1 + r.2.2.2.1) % 2 ^ 32), ((h.2.2.2.2 + r.2.2.2.2) % 2 ^ 32))

/-- Process the padded message block by block (`fuel` bounds the block count). -/
def sha1Process : Nat → Nat × Nat × Nat × Nat × Nat → List Nat → Nat × Nat × Nat × Nat × Nat
  | 0, h, _ => h
  | f + 1, h, bytes =>
    match bytes with
    | [] => h
    | _ => sha1Process f (sha1Compress h (bytes.take 64)) (bytes.drop 64)

/-- The 20-byte SHA-1 digest of a byte string. -/
def sha1 (msg : List Nat) : List Nat :=
  let padded := sha1Pad msg
  let h := sha1Process (padded.length / 64 + 1)
    (0x67452301, 0xEFCDAB89, 0x98BADCFE, 0x10325476, 0xC3D2E1F0) padded
  beBytes 4 h.1 ++ beBytes 4 h.2.1 ++ beBytes 4 h.2.2.1 ++ beBytes 4 h.2.2.2.1 ++
    beBytes 4 h.2.2.2.2

/-! ## Metainfo model (src/common/src/metainfo/, with the `File` and
`Md5Value` items from src/src/schema/metainfo/)

Rust `String`s are modelled by their byte content: `String::from_utf8_lossy`
never fails, so `BencodeValue::to_string` succeeds exactly when `to_bytes`
does, and no claim depends on the lossy replacement of invalid sequences.
`HashMap::remove(key)` on the association-list representation returns the
removed value (if any) and the remaining map.
-/

/-- `HashMap::remove`: the value stored under `k`, and the map without it. -/
def dictRemove (k : List Nat) : BVEntries → Option BencodeValue × BVEntries
  | [] => (none, [])
  | (k', v) :: rest =>
    if k' = k then (some v, rest)
    else
      let r := dictRemove k rest
      (r.1, (k', v) :: r.2)

/-- `BencodeValue::to_dict`. -/
def BencodeValue.to_dict : BencodeValue → Option BVEntries
  | .Dict d => some d
  | _ => none

/-- `BencodeValue::to_bytes`. -/
def BencodeValue.to_bytes : BencodeValue → Option ByteStr
  | .Bytes b => some b
  | _ => none

/-- `BencodeValue::to_string` (`from_utf8_lossy` modelled as the identity on
byte content). -/
def BencodeValue.to_string : BencodeValue → Option ByteStr := BencodeValue.to_bytes

/-- `BencodeValue::to_i128`. -/
def BencodeValue.to_i128 : BencodeValue → Option Int
  | .Integer i => some i
  | _ => none

/-- `u64::try_from` on an `i128`. -/
def u64FromI128 (i : Int) : Option Nat :=
  if 0 ≤ i ∧ i ≤ 2 ^ 64 - 1 then some i.toNat else none

/-- `BencodeValue::to_u64`. -/
def BencodeValue.to_u64 (v : BencodeValue) : Option Nat :=
  (BencodeValue.to_i128 v).bind u64FromI128

/-- `BencodeValue::to_list`. -/
def BencodeValue.to_list : BencodeValue → Option BVList
  | .List l => some l
  | _ => none

/-- `BencodeValue::to_time`: a `SystemTime` modelled as signed seconds from
the Unix epoch; the magnitude must convert to `u64` (`Duration::from_secs`). -/
def BencodeValue.to_time (v : BencodeValue) : Option Int :=
  (BencodeValue.to_i128 v).bind fun i =>
    if i < 0 then (if -i ≤ 2 ^ 64 - 1 then some i else none)
    else (if i ≤ 2 ^ 64 - 1 then some i else none)

/-- One hex digit (`char::to_digit(16)` via `u8::from_str_radix`). -/
def hexDigit (c : Nat) : Option Nat :=
  if 48 ≤ c ∧ c ≤ 57 then some (c - 48)
  else if 97 ≤ c ∧ c ≤ 102 then some (c - 87)
  else if 65 ≤ c ∧ c ≤ 70 then some (c - 55)
  else none

/-- A 2-character chunk through `u8::from_str_radix(s, 16)` (which also
accepts a leading `+`). -/
def hexPair (a b : Nat) : Option Nat :=
  if a = 43 then hexDigit b
  else (hexDigit a).bind fun x => (hexDigit b).map fun y => 16 * x + y

/-- `chunks_exact(2)` + hex conversion over the md5 string. -/
def hexPairs : List Nat → Option (List Nat)
  | [] => some []
  | a :: b :: rest => (hexPair a b).bind fun x => (hexPairs rest).map fun xs => x :: xs
  | _ => none

/-- `Md5Value::try_from(BencodeValue)`: a 32-character hex string into 16
bytes. -/
def Md5Value.try_from (input : BencodeValue) : Option (List Nat) :=
  (BencodeValue.to_bytes input).bind fun bytes =>
    if bytes.length = 32 then hexPairs bytes else none

/-- `Option<BencodeValue> → map(Md5Value::try_from) → transpose()`. -/
def md5Transpose : Option BencodeValue → Option (Option (List Nat))
  | none => some none
  | some v => (Md5Value.try_from v).map some

/-- A file entry of a multi-file torrent (src/src/schema/metainfo/file.rs). -/
structure TorrentFile where
  length : Nat
  md5sum : Option (List Nat)
  path : List (List Nat)
deriving DecidableEq

/-- Collect `to_string` over a list of bencode values (path components,
announce URLs). -/
def stringList : BVList → Option (List (List Nat))
  | [] => some []
  | v :: rest =>
    (BencodeValue.to_string v).bind fun s => (stringList rest).map fun ss => s :: ss

/-- `File::try_from(BencodeValue)`. -/
def TorrentFile.try_from (input : BencodeValue) : Option TorrentFile :=
  (BencodeValue.to_dict input).bind fun d0 =>
    let r1 := dictRemove [108, 101, 110, 103, 116, 104] d0          -- "length"
    let r2 := dictRemove [112, 97, 116, 104] r1.2                   -- "path"
    match r1.1, r2.1 with
    | some (.Integer length), some (.List path_list) =>
      let r3 := dictRemove [109, 100, 53, 115, 117, 109] r2.2       -- "md5sum"
      (md5Transpose r3.1).bind fun md5sum =>
        (stringList path_list).bind fun path =>
          (u64FromI128 length).map fun len =>
            { length := len, md5sum := md5sum, path := path }
    | _, _ => none

/-- Collect `File::try_from` over the `files` list. -/
def filesList : BVList → Option (List TorrentFile)
  | [] => some []
  | v :: rest =>
    (TorrentFile.try_from v).bind fun f => (filesList rest).map fun fs => f :: fs

/-- `chunks_exact(20)` over the `pieces` byte string (fuel = byte count). -/
def chunksExact20 : Nat → List Nat → List (List Nat)
  | 0, _ => []
  | f + 1, l => if l.length < 20 then [] else l.take 20 :: chunksExact20 f (l.drop 20)

/-- The `info` dictionary (src/common/src/metainfo/info.rs); a `Piece` is its
20-byte digest. -/
inductive Info where
  | SingleFile (piece_length : Nat) (pieces : List (List Nat)) (name : List Nat)
      (length : Nat) (md5sum : Option (List Nat))
  | MultiFile (piece_length : Nat) (pieces : List (List Nat)) (name : List Nat)
      (files : List TorrentFile)
deriving DecidableEq

/-- `Info::try_from(BencodeValue)`. -/
def Info.try_from (input : BencodeValue) : Option Info :=
  (BencodeValue.to_dict input).bind fun d0 =>
    let rp := dictRemove [112, 105, 101, 99, 101, 32, 108, 101, 110, 103, 116, 104] d0
    let rq := dictRemove [112, 105, 101, 99, 101, 115] rp.2
    let rn := dictRemove [110, 97, 109, 101] rq.2
    match rp.1, rq.1, rn.1.bind BencodeValue.to_string with
    | some (.Integer piece_length), some (.Bytes pieces_bytes), some name =>
      if pieces_bytes ≠ [] ∧ pieces_bytes.length % 20 = 0 then
        let pieces := chunksExact20 pieces_bytes.length pieces_bytes
        let rl := dictRemove [108, 101, 110, 103, 116, 104] rn.2
        let rf := dictRemove [102, 105, 108, 101, 115] rl.2
        match rl.1, rf.1 with
        | some (.Integer length), none =>
          (u64FromI128 piece_length).bind fun pl =>
            (u64FromI128 length).bind fun len =>
              (md5Transpose (dictRemove [109, 100, 53, 115, 117, 109] rf.2).1).map fun md5 =>
                Info.SingleFile pl pieces name len md5
        | none, some (.List files) =>
          (u64FromI128 piece_length).bind fun pl =>
            (filesList files).map fun fs => Info.MultiFile pl pieces name fs
        | _, _ => none
      else none
    | _, _, _ => none

/-- The metainfo file model (src/common/src/metainfo/mod.rs). -/
structure MetainfoFile where
  info : Info
  announce : List Nat
  announce_list : Option (List (List (List Nat)))
  creation_date : Option Int
  comment : Option (List Nat)
  created_by : Option (List Nat)
  encoding : Option (List Nat)
  info_hash : List Nat
deriving DecidableEq

/-- `Option<BencodeValue> → map(f) → transpose()`. -/
def optTranspose (f : BencodeValue → Option (List Nat)) :
    Option BencodeValue → Option (Option (List Nat))
  | none => some none
  | some v => (f v).map some

/-- The `announce-list` tiers: a list of lists of strings. -/
def announceTiers : BVList → Option (List (List (List Nat)))
  | [] => some []
  | t :: rest =>
    (BencodeValue.to_list t).bind fun tier =>
      (stringList tier).bind fun strs => (announceTiers rest).map fun ts => strs :: ts

/-- The optional `announce-list` value. -/
def announceListOpt : Option BencodeValue → Option (Option (List (List (List Nat))))
  | none => some none
  | some v => (BencodeValue.to_list v).bind fun l => (announceTiers l).map some

/-- The optional `creation date` value. -/
def creationDateOpt : Option BencodeValue → Option (Option Int)
  | none => some none
  | some v => (BencodeValue.to_time v).map some

/-- `MetainfoFile::try_from(BencodeValue)`: note that the info hash is
`Sha1::new_with_prefix(info_benc.encode()).finalize()` — the SHA-1 of the
canonical **re-encoding** of the decoded `info` value. -/
def MetainfoFile.of_bencode (input : BencodeValue) : Option MetainfoFile :=
  (BencodeValue.to_dict input).bind fun d0 =>
    let ri := dictRemove [105, 110, 102, 111] d0                    -- "info"
    let ra := dictRemove [97, 110, 110, 111, 117, 110, 99, 101] ri.2 -- "announce"
    match ri.1, ra.1.bind BencodeValue.to_string with
    | some info_benc, some announce =>
      let info_hash := sha1 (BencodeValue.encode info_benc)
      let ral := dictRemove [97, 110, 110, 111, 117, 110, 99, 101, 45,
        108, 105, 115, 116] ra.2                                    -- "announce-list"
      (announceListOpt ral.1).bind fun announce_list =>
        let rcd := dictRemove [99, 114, 101, 97, 116, 105, 111, 110, 32,
          100, 97, 116, 101] ral.2                                  -- "creation date"
        (creationDateOpt rcd.1).bind fun creation_date =>
          let rcm := dictRemove [99, 111, 109, 109, 101, 110, 116] rcd.2 -- "comment"
          (optTranspose BencodeValue.to_string rcm.1).bind fun comment =>
            let rcb := dictRemove [99, 114, 101, 97, 116, 101, 100, 32, 98, 121] rcm.2
            (optTranspose BencodeValue.to_string rcb.1).bind fun created_by =>
              let ren := dictRemove [101, 110, 99, 111, 100, 105, 110, 103] rcb.2
              (optTranspose BencodeValue.to_string ren.1).bind fun encoding =>
                (Info.try_from info_benc).map fun info =>
                  { info := info, announce := announce, announce_list := announce_list,
                    creation_date := creation_date, comment := comment,
                    created_by := created_by, encoding := encoding, info_hash := info_hash }
    | _, _ => none

/-- `MetainfoFile::try_from(&[u8])`: decode, then project. -/
def MetainfoFile.try_from (input : List Nat) : Option MetainfoFile :=
  (BencodeValue.decode input).bind MetainfoFile.of_bencode

/-- A torrent file accepted by `MetainfoFile::try_from` whose `info` dict's
keys appear on the wire in the non-canonical order
`name, pieces, piece length, length`:
`d8:announce1:u4:infod4:name1:n6:pieces20:AAAAAAAAAAAAAAAAAAAA12:piece lengthi1e6:lengthi1eee`.
The raw byte span of the `info` value is bytes 20..91 (71 bytes). -/
def c1Bytes : List Nat :=
  [100, 56, 58, 97, 110, 110, 111, 117, 110, 99, 101, 49, 58, 117, 52, 58, 105, 110, 102,
   111, 100, 52, 58, 110, 97, 109, 101, 49, 58, 110, 54, 58, 112, 105, 101, 99, 101, 115,
   50, 48, 58, 65, 65, 65, 65, 65, 65, 65, 65, 65, 65, 65, 65, 65, 65, 65, 65, 65, 65, 65,
   65, 49, 50, 58, 112, 105, 101, 99, 101, 32, 108, 101, 110, 103, 116, 104, 105, 49, 101,
   54, 58, 108, 101, 110, 103, 116, 104, 105, 49, 101, 101, 101]

/-! ## Peer-wire messages (src/common/src/peer/mod.rs)

`write_to` is modelled as the byte string written to the writer.  A
`BlockRef` is its 12-byte big-endian representation
(`index ‖ begin ‖ length`).  The length fields written as `u32` wrap
modulo `2^32` (`beBytes` reduces each byte, which is exactly the
`as u32` cast followed by `to_be_bytes`).
-/

/-- `u32::from_be_bytes` of the first four bytes. -/
def beU32 : List Nat → Nat
  | a :: b :: c :: d :: _ => ((a * 256 + b) * 256 + c) * 256 + d
  | _ => 0

/-- `u16::from_be_bytes` of the first two bytes. -/
def beU16 : List Nat → Nat
  | a :: b :: _ => a * 256 + b
  | _ => 0

/-- The ASCII bytes of `PROTOCOL_NAME = "BitTorrent protocol"`. -/
def PROTOCOL_NAME : List Nat :=
  [66, 105, 116, 84, 111, 114, 114, 101, 110, 116, 32,
   112, 114, 111, 116, 111, 99, 111, 108]

/-- `PEERMESSAGE_PIECE_MAX_LEN = PEERMESSAGE_PIECE_MIN_LEN + PIECE_MAX_LEN
= 9 + 16 * 1024`. -/
def PEERMESSAGE_PIECE_MAX_LEN : Nat := 9 + 16 * 1024

/-- The peer-wire message enum. -/
inductive PeerMessage where
  | Handshake (info_hash : List Nat) (peer_id : List Nat)
  | KeepAlive
  | Choke
  | Unchoke
  | Interested
  | NotInterested
  | Have (index : Nat)
  | Bitfield (bitfield : List Nat)
  | Request (block : List Nat)
  | Piece (block : List Nat) (data : List Nat)
  | Cancel (block : List Nat)
  | Port (port : Nat)
deriving DecidableEq

/-- `PeerMessage::write_to`: the bytes written for each message.  Message ids
0–9 and the per-message length constants are inlined from the source. -/
def PeerMessage.write_to : PeerMessage → List Nat
  | .Handshake info_hash peer_id =>
    19 :: PROTOCOL_NAME ++ List.replicate 8 0 ++ info_hash ++ peer_id
  | .KeepAlive => beBytes 4 0
  | .Choke => beBytes 4 1 ++ [0]
  | .Unchoke => beBytes 4 1 ++ [1]
  | .Interested => beBytes 4 1 ++ [2]
  | .NotInterested => beBytes 4 1 ++ [3]
  | .Have index => beBytes 4 5 ++ [4] ++ beBytes 4 index
  | .Bitfield bitfield => beBytes 4 (1 + bitfield.length) ++ [5] ++ bitfield
  | .Request block => beBytes 4 13 ++ [6] ++ block
  | .Piece block data => beBytes 4 (9 + data.length) ++ [7] ++ block.take 8 ++ data
  | .Cancel block => beBytes 4 13 ++ [8] ++ block
  | .Port port => beBytes 4 3 ++ [9] ++ beBytes 2 port

/-- `PeerMessage::try_from(&[u8])` on one message payload (the bytes after
the length prefix); `input.len()` is `rest.length + 1` in each arm. -/
def PeerMessage.try_from (input : List Nat) : Option PeerMessage :=
  match input with
  | [] => some .KeepAlive
  | id :: rest =>
    match id with
    | 0 => if rest.length = 0 then some .Choke else none
    | 1 => if rest.length = 0 then some .Unchoke else none
    | 2 => if rest.length = 0 then some .Interested else none
    | 3 => if rest.length = 0 then some .NotInterested else none
    | 4 => if rest.length = 4 then some (.Have (beU32 rest)) else none
    | 5 => some (.Bitfield rest)
    | 6 => if rest.length = 12 then some (.Request rest) else none
    | 7 =>
      if 8 ≤ rest.length then
        some (.Piece (rest.take 8 ++ beBytes 4 (rest.length - 8)) (rest.drop 8))
      else none
    | 8 => if rest.length = 12 then some (.Cancel rest) else none
    | 9 => if rest.length = 2 then some (.Port (beU16 rest)) else none
    | _ => none

/-- The `ParsedPeerMessage` enum. -/
inductive ParsedPeerMessage where
  | Complete (message : PeerMessage) (remainder : List Nat)
  | Incomplete (input : List Nat)
  | Invalid (frame : List Nat) (remainder : List Nat)
deriving DecidableEq

/-- `impl From<&[u8]> for ParsedPeerMessage`, exactly as written in the
source: the length is read from `input[0..4]`, the message slice is
`input.get(1..len)` (`Some` iff `1 ≤ len ≤ input.len()`), and the remainder
is `input.get(len..).unwrap_or(&[])`. -/
def ParsedPeerMessage.ofBytes (input : List Nat) : ParsedPeerMessage :=
  if 4 ≤ input.length then
    if 1 ≤ beU32 (input.take 4) ∧ beU32 (input.take 4) ≤ input.length then
      match PeerMessage.try_from ((input.drop 1).take (beU32 (input.take 4) - 1)) with
      | some m => .Complete m (input.drop (beU32 (input.take 4)))
      | none =>
        .Invalid (input.take (beU32 (input.take 4))) (input.drop (beU32 (input.take 4)))
    else .Incomplete input
  else .Incomplete input

/-! ## The Active connection read loop
(src/client/src/peer/active_connection.rs `Connection::<Active>::listen`)

The loop body is modelled over the connection's byte stream: `read_exact`
succeeds iff enough bytes remain (`Eof` otherwise); an oversized length
prefix returns the `ErrorKind::Unsupported` error *before* any payload
byte is read; an undecodable payload is only logged (`eprintln!`) and
dispatches no message.
-/

/-- The error cases of one `listen` iteration. -/
inductive ListenError where
  | Eof
  | TooLong (max got : Nat)
deriving DecidableEq

/-- One iteration of `Connection::<Active>::listen`: the dispatched message
(if any) and the remaining stream. -/
def listenOnce (input : List Nat) : Except ListenError (Option PeerMessage × List Nat) :=
  if input.length < 4 then .error .Eof
  else if PEERMESSAGE_PIECE_MAX_LEN < beU32 (input.take 4) then
    .error (.TooLong PEERMESSAGE_PIECE_MAX_LEN (beU32 (input.take 4)))
  else if (input.drop 4).length < beU32 (input.take 4) then .error .Eof
  else
    match PeerMessage.try_from ((input.drop 4).take (beU32 (input.take 4))) with
    | some m => .ok (some m, (input.drop 4).drop (beU32 (input.take 4)))
    | none => .ok (none, (input.drop 4).drop (beU32 (input.take 4)))

/-! ## Incoming handshake
(src/client/src/peer/incoming_connection.rs, `Connection::<PendingIncoming>`)

The async task is sequential code; it is modelled as a function of the
incoming byte stream and of the value `approval` delivered by the
coordinator's one-shot (`none` models a dropped sender, whose `await`
returns `Err(RecvError) ≠ Ok(true)`).  Writes to the socket do not affect
any claim and are not recorded.  All `io::Error` outcomes are collapsed to
`none`.
-/

/-- Modelled from the spec: the constants `common::peer::PRELUDE` and
`common::peer::PRELUDE_RESERVED` are referenced by the connection code but
their defining lines are not among the sources; §4.3 fixes the handshake
prefix as the byte `0x13` followed by the ASCII protocol name, with 8
reserved zero bytes.  Every theorem below holds for any value of these
constants. -/
def PRELUDE : List Nat := 19 :: PROTOCOL_NAME

/-- Modelled from the spec: the 8 reserved handshake bytes (zeros on send). -/
def PRELUDE_RESERVED : List Nat := List.replicate 8 0

/-- An event sent to the coordinator (`peer::IncomingEvent`). -/
inductive CoEvent where
  | HandshakeInfoHash (info_hash : List Nat)
  | Connected (peer_id info_hash : List Nat)
  | Message (message : PeerMessage)
  | Closed
deriving DecidableEq

/-- Is this a `Message` event? -/
def CoEvent.isMessage : CoEvent → Bool
  | .Message _ => true
  | _ => false

/-- The stream position after the prelude and reserved bytes are read. -/
def hsTail (stream : List Nat) : List Nat :=
  (stream.drop PRELUDE.length).drop PRELUDE_RESERVED.length

/-- `Connection::<PendingIncoming>::handshake`: returns the events sent to
the coordinator, and `some (their_peer_id, info_hash, unread stream)` on
success.  The `HandshakeInfoHash` event is sent *before* the one-shot is
awaited; the task cannot proceed unless the await returns `Ok(true)`. -/
def handshakeIncoming (stream : List Nat) (approval : Option Bool) :
    List CoEvent × Option (List Nat × List Nat × List Nat) :=
  if stream.length < PRELUDE.length then ([], none)
  else if stream.take PRELUDE.length ≠ PRELUDE then ([], none)
  else if (stream.drop PRELUDE.length).length < PRELUDE_RESERVED.length then ([], none)
  else if (hsTail stream).length < 20 then ([], none)
  else if approval ≠ some true then
    ([CoEvent.HandshakeInfoHash ((hsTail stream).take 20)], none)
  else if ((hsTail stream).drop 20).length < 20 then
    ([CoEvent.HandshakeInfoHash ((hsTail stream).take 20)], none)
  else
    ([CoEvent.HandshakeInfoHash ((hsTail stream).take 20)],
      some (((hsTail stream).drop 20).take 20, (hsTail stream).take 20,
        ((hsTail stream).drop 20).drop 20))

/-- The Active read loop (`listen`), collecting the events it dispatches
until the stream errors (`fuel` bounds the number of frames). -/
def listenTrace : Nat → List Nat → List CoEvent
  | 0, _ => []
  | fuel + 1, input =>
    match listenOnce input with
    | .error _ => []
    | .ok (some m, rest) => CoEvent.Message m :: listenTrace fuel rest
    | .ok (none, rest) => listenTrace fuel rest

/-- The whole incoming-connection task
(`Connection::<PendingIncoming>::accept`): handshake, then the `Connected`
event sent by `Peer::send`, then the Active loop — the only source of
`Message` events. -/
def incomingTask (stream : List Nat) (approval : Option Bool) (fuel : Nat) : List CoEvent :=
  match handshakeIncoming stream approval with
  | (evts, none) => evts
  | (evts, some (peer_id, info_hash, rest)) =>
    evts ++ CoEvent.Connected peer_id info_hash :: listenTrace fuel rest

/-! ## Tracker swarm registry and announce pipeline
(src/src/tracker/torrent.rs, src/src/tracker/announce.rs,
src/src/schema/tracker/peer.rs, src/src/schema/tracker/mod.rs)

Modelling conventions for this section:
* `Instant` is `Int` seconds on the monotonic clock; where the source calls
  `Instant::now()` the current instant is passed in as `now`.
* `SocketAddr` is an `(ip, port)` pair whose ip is an opaque code.
* `HashSet<Peer>` is a list.  An operation affects the stored elements
  whose *hash input* — the data `impl Hash for Peer` feeds the hasher:
  the peer id when present, then the key when present or else the socket
  address — equals the probe's, and which also compare equal under
  `impl PartialEq`.  (Collisions of 64-bit SipHash between distinct hash
  inputs are disregarded, the standard idealization.)
* The `rand` dependency (`choose_multiple` then `shuffle`) is modelled by an
  explicit stream of indices: over all seeds, `permuteBySeed` followed by
  `take count` produces exactly the `count`-element subsets of the filtered
  list in arbitrary order.
* `requirecrypto` is carried as a field (set by `Request::as_peer`); the
  `PartialEq`/`Hash`/staleness logic never reads it.
-/

/-- `schema::tracker::Peer`. -/
structure Peer where
  last_seen : Int
  peer_id : Option (List Nat)
  addr : Nat × Nat
  uploaded : Option Nat
  downloaded : Option Nat
  left : Option Nat
  key : Option (List Nat)
  supportcrypto : Option Bool
  requirecrypto : Option Bool
deriving DecidableEq

/-- `impl PartialEq for Peer`: compare ids when both are present, otherwise
compare socket addresses. -/
def Peer.eq (a b : Peer) : Bool :=
  match a.peer_id, b.peer_id with
  | some x, some y => decide (x = y)
  | _, _ => decide (a.addr = b.addr)

/-- The data `impl Hash for Peer` feeds the hasher: the id bytes when
present, then the key bytes when present or else the socket address. -/
def Peer.hashInput (p : Peer) : Option (List Nat) × (List Nat ⊕ (Nat × Nat)) :=
  (p.peer_id, match p.key with | some k => Sum.inl k | none => Sum.inr p.addr)

/-- `Peers::remove` (`HashSet::remove`). -/
def Peers.remove (s : List Peer) (peer : Peer) : List Peer :=
  s.filter fun q => !(decide (q.hashInput = peer.hashInput) && Peer.eq q peer)

/-- `Peers::replace` (`HashSet::replace`): drop the matching stored element,
keep the new value. -/
def Peers.replace (s : List Peer) (peer : Peer) : List Peer :=
  peer :: Peers.remove s peer

/-- `Peers::expiry()`: the hardcoded `Instant::now() - Duration::from_secs(3600)`. -/
def Peers.expiry (now : Int) : Int := now - 3600

/-- `Peers::complete_incomplete`: count peers with `left == Some(0)` as
complete, the rest as incomplete. -/
def Peers.complete_incomplete (s : List Peer) : Nat × Nat :=
  s.foldl
    (fun ci peer => if peer.left = some 0 then (ci.1 + 1, ci.2) else (ci.1, ci.2 + 1))
    (0, 0)

/-- A seeded permutation: repeatedly extract the element at the seed-chosen
index.  Together with `take count` this models
`choose_multiple(&mut rng, count)` followed by `shuffle(&mut rng)`. -/
def permuteBySeed {α : Type} : List Nat → List α → List α
  | [], l => l
  | _ :: _, [] => []
  | s :: seed, x :: xs =>
    (x :: xs).getD (s % (x :: xs).length) x ::
      permuteBySeed seed ((x :: xs).eraseIdx (s % (x :: xs).length))

/-- `Some(p) == exclude` from the `get_multiple` filter: true when the
excluded peer is present and compares equal to `p`. -/
def excludedBy (exclude : Option Peer) (p : Peer) : Bool :=
  match exclude with
  | some e => Peer.eq p e
  | none => false

/-- The `get_multiple` filter `Some(p) != exclude && p.last_seen > expiry`. -/
def keepPeer (now : Int) (exclude : Option Peer) (p : Peer) : Bool :=
  !excludedBy exclude p && decide (Peers.expiry now < p.last_seen)

/-- `Peers::get_multiple`: keep the peers that are not the excluded one
(`Some(p) != exclude`, Peer equality) and whose `last_seen` is after the
expiry cutoff, then pick and shuffle at most `count` of them. -/
def Peers.get_multiple (now : Int) (seed : List Nat) (s : List Peer) (count : Nat)
    (exclude : Option Peer) : List Peer :=
  (permuteBySeed seed (s.filter (keepPeer now exclude))).take count

/-- `schema::tracker::Event`. -/
inductive Event where
  | Started
  | Completed
  | Stopped
deriving DecidableEq

/-- `schema::tracker::Request`. -/
structure Request where
  info_hash : List Nat
  peer_id : List Nat
  ip : Option Nat
  port : Nat
  uploaded : Nat
  downloaded : Nat
  left : Nat
  event : Option Event
  numwant : Option Nat
  key : Option (List Nat)
  compact : Option Bool
  supportcrypto : Option Bool
  requirecrypto : Option Bool
  no_peer_id : Option Bool
  trackerid : Option (List Nat)
deriving DecidableEq

/-- `Request::as_peer(origin_ip)` with `last_seen = Instant::now()`. -/
def Request.as_peer (r : Request) (now : Int) (origin_ip : Nat) : Peer :=
  { last_seen := now,
    peer_id := some r.peer_id,
    addr := (r.ip.getD origin_ip, r.port),
    uploaded := some r.uploaded,
    downloaded := some r.downloaded,
    left := some r.left,
    key := r.key,
    supportcrypto := r.supportcrypto,
    requirecrypto := r.requirecrypto }

/-- `tracker::torrent::Torrent`. -/
structure Torrent where
  info_hash : List Nat
  peers : List Peer
  complete : Nat
  incomplete : Nat
  downloaded : Nat
  name : Option (List Nat)
deriving DecidableEq

/-- `Torrent::update_counts`. -/
def Torrent.update_counts (t : Torrent) : Torrent :=
  { t with
    complete := (Peers.complete_incomplete t.peers).1,
    incomplete := (Peers.complete_incomplete t.peers).2 }

/-- `schema::tracker::SuccessResponse`. -/
structure SuccessResponse where
  warning_message : Option (List Nat)
  interval : Nat
  min_interval : Option Nat
  tracker_id : Option (List Nat)
  complete : Option Nat
  incomplete : Option Nat
  peers : List Peer
deriving DecidableEq

/-- The swarm after the announce's update step: `event == Stopped` removes
the announcing peer, any other event replaces (insert-or-refresh) it. -/
def announcePeers (now : Int) (request : Request) (remote_ip : Nat)
    (torrent : Torrent) : List Peer :=
  if request.event = some Event.Stopped then
    Peers.remove torrent.peers (request.as_peer now (request.ip.getD remote_ip))
  else
    Peers.replace torrent.peers (request.as_peer now (request.ip.getD remote_ip))

/-- The torrent after the announce: updated peers, `downloaded` bumped on
`Completed`, and the complete/incomplete counts recomputed. -/
def announceTorrent (now : Int) (request : Request) (remote_ip : Nat)
    (torrent : Torrent) : Torrent :=
  Torrent.update_counts
    { torrent with
      peers := announcePeers now request remote_ip torrent,
      downloaded :=
        if request.event = some Event.Completed then torrent.downloaded + 1
        else torrent.downloaded }

/-- `tracker::announce::announce`, acting on the torrent selected by
`torrents.get_or_insert(request.info_hash)`: returns the success response
and the updated torrent.  The response peer count is
`numwant.and_then(usize::try_from(..).ok()).unwrap_or(usize::MAX).clamp(0, 50)`,
i.e. `min (numwant or usize::MAX) 50`. -/
def announce (now : Int) (seed : List Nat) (request : Request) (remote_ip : Nat)
    (torrent : Torrent) : SuccessResponse × Torrent :=
  ({ warning_message := none,
     interval := 60,
     min_interval := none,
     tracker_id := none,
     complete := some (announceTorrent now request remote_ip torrent).complete,
     incomplete := some (announceTorrent now request remote_ip torrent).incomplete,
     peers :=
       Peers.get_multiple now seed (announceTorrent now request remote_ip torrent).peers
         (min (request.numwant.getD (2 ^ 64 - 1)) 50)
         (some (request.as_peer now (request.ip.getD remote_ip))) },
   announceTorrent now request remote_ip torrent)

/-! ### C4: staleness cutoff -/

/-- A peer whose last announce was 1000 s ago: past the documented 900 s
`timeout_interval` default, but inside the hardcoded one-hour window. -/
def c4Stale : Peer :=
  { last_seen := 9000, peer_id := some (List.replicate 20 1), addr := (10, 6881),
    uploaded := some 0, downloaded := some 0, left := some 0,
    key := none, supportcrypto := none, requirecrypto := none }

/-- The peer making the announce that triggers the response. -/
def c4Announcer : Peer :=
  { last_seen := 10000, peer_id := some (List.replicate 20 2), addr := (11, 6881),
    uploaded := some 0, downloaded := some 0, left := some 0,
    key := none, supportcrypto := none, requirecrypto := none }

/-! ### C5: response capping -/

/-- An announce with `event = Stopped` from a peer already in the swarm. -/
def c5Announcer : Request :=
  { info_hash := List.replicate 20 0, peer_id := List.replicate 20 3, ip := none,
    port := 6881, uploaded := 0, downloaded := 0, left := 0,
    event := some Event.Stopped, numwant := none, key := none, compact := none,
    supportcrypto := none, requirecrypto := none, no_peer_id := none,
    trackerid := none }

/-- A second, fresh swarm member. -/
def c5Other : Peer :=
  { last_seen := 50, peer_id := some (List.replicate 20 4), addr := (9, 9),
    uploaded := none, downloaded := none, left := some 0,
    key := none, supportcrypto := none, requirecrypto := none }

/-- A swarm holding the announcer's earlier entry and one other peer. -/
def c5Swarm : Torrent :=
  { info_hash := List.replicate 20 0,
    peers := [Request.as_peer c5Announcer 10 7, c5Other],
    complete := 0, incomplete := 0, downloaded := 0, name := none }

/-! ### C6: replace/remove idempotence per peer identity -/

def c6Id : List Nat := List.replicate 20 5

/-- A peer as stored by a first announce. -/
def c6First : Peer :=
  { last_seen := 0, peer_id := some c6Id, addr := (1, 1), uploaded := none,
    downloaded := none, left := none, key := none, supportcrypto := none,
    requirecrypto := none }

/-- The same peer_id announcing again from a different address. -/
def c6Second : Peer :=
  { last_seen := 1, peer_id := some c6Id, addr := (2, 2), uploaded := none,
    downloaded := none, left := none, key := none, supportcrypto := none,
    requirecrypto := none }

/-! ### C7: the Peer equality predicate -/

/-- A peer that carries a peer_id. -/
def c7WithId : Peer :=
  { last_seen := 0, peer_id := some (List.replicate 20 6), addr := (3, 3),
    uploaded := none, downloaded := none, left := none, key := none,
    supportcrypto := none, requirecrypto := none }

/-- A peer at the same address that carries no peer_id. -/
def c7NoId : Peer :=
  { last_seen := 0, peer_id := none, addr := (3, 3), uploaded := none,
    downloaded := none, left := none, key := none, supportcrypto := none,
    requirecrypto := none }

/-! ## Theorems -/

theorem natToDecAux_fuel : ∀ f1 f2 n, n < f1 → n < f2 → natToDecAux f1 n = natToDecAux f2 n := by
  intro f1
  induction f1 with
  | zero => omega
  | succ f1 ih =>
    intro f2 n h1 h2
    match f2, h2 with
    | f2 + 1, h2 =>
      simp only [natToDecAux]
      split
      · rfl
      · rw [ih f2 (n / 10) (by omega) (by omega)]

/-- The recursion equation of `natToDec`. -/
theorem natToDec_eq (n : Nat) :
    natToDec n = if n < 10 then [48 + n] else natToDec (n / 10) ++ [48 + n % 10] := by
  show natToDecAux (n + 1) n = _
  simp only [natToDecAux]
  split
  · rfl
  · rw [natToDecAux_fuel n (n / 10 + 1) (n / 10) (by omega) (by omega)]; rfl

/-- Smoke test of the decoder embedding on the BEP-3 dict example
`d3:cow3:moo4:spam4:eggse`, including the leading-zero and non-consuming
rejections of the nom parser. -/
theorem decode_smoke_tests :
    BencodeValue.decode [105, 48, 101] = some (.Integer 0) ∧
    BencodeValue.decode [105, 45, 48, 101] = none ∧
    BencodeValue.decode [105, 48, 49, 101] = none ∧
    BencodeValue.decode [48, 52, 58] = none ∧
    BencodeValue.decode
      [100, 51, 58, 99, 111, 119, 51, 58, 109, 111, 111,
       52, 58, 115, 112, 97, 109, 52, 58, 101, 103, 103, 115, 101] =
    some (.Dict [([99, 111, 119], .Bytes [109, 111, 111]),
                 ([115, 112, 97, 109], .Bytes [101, 103, 103, 115])]) ∧
    BencodeValue.encode
      (.Dict [([115, 112, 97, 109], .Bytes [101, 103, 103, 115]),
              ([99, 111, 119], .Bytes [109, 111, 111])]) =
      [100, 51, 58, 99, 111, 119, 51, 58, 109, 111, 111,
       52, 58, 115, 112, 97, 109, 52, 58, 101, 103, 103, 115, 101] := by
  exact ⟨rfl, rfl, rfl, rfl, rfl, rfl⟩

/-! ### Order lemmas for `bytesLt` (Rust's `Ord` on byte slices) -/

theorem bytesLt_irrefl : ∀ a, bytesLt a a = false
  | [] => rfl
  | x :: xs => by simp [bytesLt, bytesLt_irrefl xs]

theorem bytesLt_asymm : ∀ a b, bytesLt a b = true → bytesLt b a = false
  | [], [] => by simp [bytesLt]
  | [], _ :: _ => by simp [bytesLt]
  | _ :: _, [] => by simp [bytesLt]
  | a :: as, b :: bs => by
    intro h
    simp only [bytesLt] at h ⊢
    rcases Nat.lt_trichotomy a b with h1 | h1 | h1
    · simp [h1, Nat.lt_asymm h1]
    · subst h1
      simp only [lt_self_iff_false, if_false] at h ⊢
      exact bytesLt_asymm as bs h
    · simp [h1, Nat.lt_asymm h1] at h

theorem bytesLt_connex : ∀ a b, bytesLt a b = false → bytesLt b a = false → a = b
  | [], [] => by simp
  | [], _ :: _ => by simp [bytesLt]
  | _ :: _, [] => by simp [bytesLt]
  | a :: as, b :: bs => by
    intro h1 h2
    simp only [bytesLt] at h1 h2
    rcases Nat.lt_trichotomy a b with hab | hab | hab
    · simp [hab] at h1
    · subst hab
      simp only [lt_self_iff_false, if_false] at h1 h2
      rw [bytesLt_connex as bs h1 h2]
    · simp [hab] at h2

theorem bytesLt_trans : ∀ a b c, bytesLt a b = true → bytesLt b c = true → bytesLt a c = true
  | [], [], _ => by simp [bytesLt]
  | [], _ :: _, [] => by intro _ h2; simp [bytesLt] at h2
  | [], _ :: _, _ :: _ => by simp [bytesLt]
  | _ :: _, [], _ => by simp [bytesLt]
  | _ :: _, _ :: _, [] => by intro _ h2; simp [bytesLt] at h2
  | a :: as, b :: bs, c :: cs => by
    intro h1 h2
    simp only [bytesLt] at h1 h2 ⊢
    rcases Nat.lt_trichotomy a b with hab | hab | hab
    · rcases Nat.lt_trichotomy b c with hbc | hbc | hbc
      · simp [show a < c by omega]
      · subst hbc; simp [hab]
      · simp [hbc, Nat.lt_asymm hbc] at h2
    · subst hab
      rcases Nat.lt_trichotomy a c with hac | hac | hac
      · simp [hac]
      · subst hac
        simp only [lt_self_iff_false, if_false] at h1 h2 ⊢
        exact bytesLt_trans as bs cs h1 h2
      · simp [hac, Nat.lt_asymm hac] at h2
    · simp [hab, Nat.lt_asymm hab] at h1

/-! ### Decimal rendering and parsing lemmas -/

theorem natToDec_all_digits (n : Nat) : ∀ c ∈ natToDec n, isDigit c = true := by
  induction n using Nat.strong_induction_on with
  | _ n ih =>
    rw [natToDec_eq]
    split
    · intro c hc
      simp only [List.mem_singleton] at hc
      subst hc
      simp only [isDigit, Bool.and_eq_true, decide_eq_true_eq]
      omega
    · intro c hc
      rcases List.mem_append.mp hc with h | h
      · exact ih (n / 10) (Nat.div_lt_self (by omega) (by omega)) c h
      · simp only [List.mem_singleton] at h
        subst h
        simp only [isDigit, Bool.and_eq_true, decide_eq_true_eq]
        omega

theorem natToDec_ne_nil (n : Nat) : natToDec n ≠ [] := by
  rw [natToDec_eq]
  split
  · simp
  · simp

theorem natToDec_zero : natToDec 0 = [48] := rfl

theorem natToDec_head (n : Nat) (hn : n ≠ 0) :
    ∃ d ds, natToDec n = d :: ds ∧ 49 ≤ d ∧ d ≤ 57 := by
  induction n using Nat.strong_induction_on with
  | _ n ih =>
    rw [natToDec_eq]
    split
    · exact ⟨48 + n, [], rfl, by omega, by omega⟩
    · rename_i h
      obtain ⟨d, ds, hd, h1, h2⟩ := ih (n / 10) (Nat.div_lt_self (by omega) (by omega)) (by omega)
      exact ⟨d, ds ++ [48 + n % 10], by rw [hd]; rfl, h1, h2⟩

theorem decVal_append_digit (xs : List Nat) (d : Nat) :
    decVal (xs ++ [d]) = 10 * decVal xs + (d - 48) := by
  simp [decVal, List.foldl_append]

theorem decVal_natToDec (n : Nat) : decVal (natToDec n) = n := by
  induction n using Nat.strong_induction_on with
  | _ n ih =>
    rw [natToDec_eq]
    split
    · simp [decVal]
    · rw [decVal_append_digit, ih (n / 10) (Nat.div_lt_self (by omega) (by omega))]
      omega

theorem takeDigits_append :
    ∀ ds rest, (∀ c ∈ ds, isDigit c = true) → noDigitHead rest = true →
      takeDigits (ds ++ rest) = (ds, rest)
  | [], rest => by
    intro _ hrest
    cases rest with
    | nil => rfl
    | cons c cs =>
      simp only [noDigitHead, Bool.not_eq_true'] at hrest
      simp [takeDigits, hrest]
  | d :: ds, rest => by
    intro hds hrest
    have hd : isDigit d = true := hds d (by simp)
    simp only [List.cons_append, takeDigits, hd, if_true]
    rw [List.append_eq, takeDigits_append ds rest (fun c hc => hds c (by simp [hc])) hrest]

theorem leadingZeroDigit_cons (c : Nat) (cs : List Nat) (h : c ≠ 48) :
    leadingZeroDigit (c :: cs) = false := by
  unfold leadingZeroDigit
  split
  · rename_i heq
    injection heq with h1 _
    omega
  · rfl

theorem leadingZeroDigit_natToDec (n : Nat) (tail : List Nat) :
    leadingZeroDigit (natToDec n ++ 58 :: tail) = false := by
  by_cases hn : n = 0
  · subst hn
    rw [natToDec_zero]
    rfl
  · obtain ⟨d, ds, hD, h49, _⟩ := natToDec_head n hn
    rw [hD, List.cons_append]
    exact leadingZeroDigit_cons d _ (by omega)

theorem parse_bytes_spec (b rest : List Nat) (h : b.length < 2 ^ 64) :
    parse_bytes (natToDec b.length ++ 58 :: (b ++ rest)) = some (b, rest) := by
  have hguard := leadingZeroDigit_natToDec b.length (b ++ rest)
  have htd : takeDigits (natToDec b.length ++ 58 :: (b ++ rest)) =
      (natToDec b.length, 58 :: (b ++ rest)) :=
    takeDigits_append _ _ (natToDec_all_digits b.length) rfl
  obtain ⟨d, ds, hD⟩ : ∃ d ds, natToDec b.length = d :: ds := by
    cases hE : natToDec b.length with
    | nil => exact absurd hE (natToDec_ne_nil _)
    | cons d ds => exact ⟨d, ds, rfl⟩
  have hdv : decVal (d :: ds) = b.length := by rw [← hD]; exact decVal_natToDec _
  rw [hD] at htd hguard
  simp only [List.cons_append] at htd hguard
  simp only [parse_bytes, hD, List.cons_append, hguard, Bool.false_eq_true, if_false, htd,
    hdv, h, if_true, List.length_append, Nat.le_add_right, List.take_left, List.drop_left]

theorem parseMagnitude_spec (m : Nat) (rest : List Nat) (hm : m ≠ 0) (hb : m ≤ 2 ^ 127 - 1) :
    parseMagnitude (natToDec m ++ 101 :: rest) = some (m, rest) := by
  have htd : takeDigits (natToDec m ++ 101 :: rest) = (natToDec m, 101 :: rest) :=
    takeDigits_append _ _ (natToDec_all_digits m) rfl
  obtain ⟨d, ds, hD, h49, h57⟩ := natToDec_head m hm
  have hdv : decVal (natToDec m) = m := decVal_natToDec m
  rw [hD] at htd hdv
  simp only [List.cons_append] at htd
  rw [hD, List.cons_append]
  have hd49 : (decide (49 ≤ d) && decide (d ≤ 57)) = true := by
    simp only [Bool.and_eq_true, decide_eq_true_eq]
    omega
  simp only [parseMagnitude, hd49, if_true, htd, hdv, hb]

theorem parse_integer_cons (c : Nat) (cs : List Nat) (h45 : c ≠ 45) (h48 : c ≠ 48) :
    parse_integer (105 :: c :: cs) =
      (parseMagnitude (c :: cs)).map (fun p => ((p.1 : Int), p.2)) := by
  simp only [parse_integer]
  split
  · rename_i rest2 heq
    injection heq with h1 _
    omega
  · rename_i rest2 heq
    injection heq with h1 _
    omega
  · rfl

theorem parse_integer_spec (i : Int) (rest : List Nat) (h : i.natAbs ≤ 2 ^ 127 - 1) :
    parse_integer (105 :: (intToDec i ++ 101 :: rest)) = some (i, rest) := by
  rcases lt_trichotomy i 0 with hi | hi | hi
  · have hI : intToDec i = 45 :: natToDec i.natAbs := by simp [intToDec, hi]
    have hmag := parseMagnitude_spec i.natAbs rest (by omega) h
    rw [hI, List.cons_append]
    simp only [parse_integer, hmag]
    have hN : (-(i.natAbs : Int)) = i := by omega
    show some (-(i.natAbs : Int), rest) = some (i, rest)
    rw [hN]
  · subst hi
    rfl
  · have h0 : i.toNat ≠ 0 := by omega
    have hI : intToDec i = natToDec i.toNat := by
      unfold intToDec
      rw [if_neg (by omega : ¬ i < 0)]
    obtain ⟨d, ds, hD, h49, h57⟩ := natToDec_head i.toNat h0
    have hmag := parseMagnitude_spec i.toNat rest h0 (by omega)
    rw [hD] at hmag
    simp only [List.cons_append] at hmag
    rw [hI, hD, List.cons_append,
      parse_integer_cons d (ds ++ 101 :: rest) (by omega) (by omega), hmag]
    have hN : ((i.toNat : Int)) = i := by omega
    simp [hN]

theorem parseElems_ne (fuel : Nat) (c : Nat) (cs : List Nat) (h : c ≠ 101) :
    parseElems (fuel + 1) (c :: cs) =
      match parse_once fuel (c :: cs) with
      | none => none
      | some (v, rest) =>
        match parseElems fuel rest with
        | none => none
        | some (vs, rest2) => some (v :: vs, rest2) := by
  simp only [parseElems]
  split
  · rename_i heq
    injection heq with h1 _
    omega
  · rfl

theorem parsePairs_ne (fuel : Nat) (c : Nat) (cs : List Nat) (h : c ≠ 101) :
    parsePairs (fuel + 1) (c :: cs) =
      match parse_bytes (c :: cs) with
      | none => none
      | some (k, rest) =>
        match parse_once fuel rest with
        | none => none
        | some (v, rest2) =>
          match parsePairs fuel rest2 with
          | none => none
          | some (ps, rest3) => some ((k, v) :: ps, rest3) := by
  simp only [parsePairs]
  split
  · rename_i heq
    injection heq with h1 _
    omega
  · rfl

theorem sortInsertKV_of_lt (p : List Nat × List Nat) :
    ∀ l, (match l with | [] => true | q :: _ => bytesLt p.1 q.1) = true →
      sortInsertKV p l = p :: l
  | [] => fun _ => rfl
  | q :: rest => by
    intro h
    simp only at h
    simp only [sortInsertKV, bytesLt_asymm _ _ h, Bool.false_eq_true, if_false]

theorem sortKV_sorted : ∀ l : KVList, kvSortedAdj l = true → sortKV l = l := by
  intro l
  induction l with
  | nil => intro _; rfl
  | cons p rest ih =>
    intro h
    have h2 : kvSortedAdj rest = true := by
      cases rest with
      | nil => rfl
      | cons q rest' =>
        simp only [kvSortedAdj, Bool.and_eq_true] at h
        exact h.2
    show sortInsertKV p (sortKV rest) = p :: rest
    rw [ih h2]
    apply sortInsertKV_of_lt
    cases rest with
    | nil => rfl
    | cons q rest' =>
      simp only [kvSortedAdj, Bool.and_eq_true] at h
      simpa using h.1

theorem insertSorted_gt (k : List Nat) (v : BencodeValue) :
    ∀ m : BVEntries, (∀ q ∈ m, bytesLt q.1 k = true) → insertSorted k v m = m ++ [(k, v)]
  | [] => fun _ => rfl
  | (k', v') :: rest => by
    intro h
    have hk : bytesLt k' k = true := h (k', v') (by simp)
    simp only [insertSorted, hk, if_true, List.cons_append]
    rw [insertSorted_gt k v rest (fun q hq => h q (by simp [hq]))]

theorem foldl_insertSorted (es : BVEntries) :
    ∀ acc : BVEntries, List.Pairwise (fun a b => bytesLt a.1 b.1 = true) (acc ++ es) →
      es.foldl (fun m p => insertSorted p.1 p.2 m) acc = acc ++ es := by
  induction es with
  | nil => intro acc _; simp
  | cons e es' ih =>
    intro acc h
    have hlt : ∀ q ∈ acc, bytesLt q.1 e.1 = true := by
      intro q hq
      exact ((List.pairwise_append.mp h).2.2 q hq e (by simp))
    show List.foldl _ (insertSorted e.1 e.2 acc) es' = _
    have : insertSorted e.1 e.2 acc = acc ++ [e] := insertSorted_gt e.1 e.2 acc hlt
    rw [this]
    have happ : (acc ++ [e]) ++ es' = acc ++ e :: es' := by simp
    rw [ih (acc ++ [e]) (by rw [happ]; exact h), happ]

theorem wfBVDict_chain (d : BVEntries) (h : wfBVDict d = true) :
    List.Chain' (fun a b => bytesLt a.1 b.1 = true) d := by
  induction d with
  | nil => simp
  | cons p rest ih =>
    obtain ⟨k, v⟩ := p
    simp only [wfBVDict, Bool.and_eq_true] at h
    refine List.chain'_cons'.mpr ⟨?_, ih h.2⟩
    intro q hq
    cases rest with
    | nil => simp at hq
    | cons q' rest' =>
      simp only [List.head?_cons, Option.mem_def, Option.some.injEq] at hq
      subst hq
      obtain ⟨k2, v2⟩ := q'
      simpa [keyLtHead] using h.1.2

theorem wfBVDict_pairwise (d : BVEntries) (h : wfBVDict d = true) :
    List.Pairwise (fun a b => bytesLt a.1 b.1 = true) d := by
  haveI : IsTrans (List Nat × BencodeValue) (fun a b => bytesLt a.1 b.1 = true) :=
    ⟨fun a b c hab hbc => bytesLt_trans a.1 b.1 c.1 hab hbc⟩
  exact List.chain'_iff_pairwise.mp (wfBVDict_chain d h)

theorem toMap_sorted (d : BVEntries) (h : wfBVDict d = true) : toMap d = d := by
  have := foldl_insertSorted d [] (by simpa using wfBVDict_pairwise d h)
  simpa [toMap] using this

/-! ### The round-trip induction -/

theorem encode_length_two (v : BencodeValue) : 2 ≤ (BencodeValue.encode v).length := by
  cases v with
  | Bytes b =>
    have h1 : 1 ≤ (natToDec b.length).length :=
      List.length_pos.mpr (natToDec_ne_nil b.length)
    simp only [BencodeValue.encode, List.length_append, List.length_cons]
    omega
  | Integer i =>
    simp only [BencodeValue.encode, List.length_cons, List.length_append]
    omega
  | List l =>
    simp only [BencodeValue.encode, List.length_cons, List.length_append]
    omega
  | Dict d =>
    simp only [BencodeValue.encode, List.length_cons, List.length_append]
    omega

theorem encode_head_ne (v : BencodeValue) :
    ∃ c cs, BencodeValue.encode v = c :: cs ∧ c ≠ 101 := by
  cases v with
  | Bytes b =>
    by_cases hb : b.length = 0
    · refine ⟨48, 58 :: b, ?_, by omega⟩
      show natToDec b.length ++ 58 :: b = _
      rw [hb, natToDec_zero]
      rfl
    · obtain ⟨d, ds, hD, h49, h57⟩ := natToDec_head b.length hb
      refine ⟨d, ds ++ 58 :: b, ?_, by omega⟩
      show natToDec b.length ++ 58 :: b = _
      rw [hD]
      rfl
  | Integer i => exact ⟨105, _, rfl, by omega⟩
  | List l => exact ⟨108, _, rfl, by omega⟩
  | Dict d => exact ⟨100, _, rfl, by omega⟩

theorem parse_once_int (fuel : Nat) (X : List Nat) :
    parse_once (fuel + 1) (105 :: X) =
      (parse_integer (105 :: X)).map (fun p => (.Integer p.1, p.2)) := rfl

theorem parse_once_list (fuel : Nat) (X : List Nat) :
    parse_once (fuel + 1) (108 :: X) =
      (parseElems fuel X).map (fun p => (.List p.1, p.2)) := rfl

theorem parse_once_dict (fuel : Nat) (X : List Nat) :
    parse_once (fuel + 1) (100 :: X) =
      (parsePairs fuel X).map (fun p => (.Dict (toMap p.1), p.2)) := rfl

theorem parse_once_digit (fuel : Nat) (c : Nat) (cs : List Nat) (h : isDigit c = true) :
    parse_once (fuel + 1) (c :: cs) =
      (parse_bytes (c :: cs)).map (fun p => (.Bytes p.1, p.2)) := by
  simp only [parse_once, h, if_true]

theorem encodeEntries_sortedAdj :
    ∀ d : BVEntries, wfBVDict d = true → kvSortedAdj (BencodeValue.encodeEntries d) = true
  | [] => fun _ => rfl
  | [(k, v)] => fun _ => rfl
  | (k, v) :: (k2, v2) :: rest => by
    intro h
    simp only [wfBVDict, Bool.and_eq_true] at h
    have hlt : bytesLt k k2 = true := h.1.2
    have h2 : wfBVDict ((k2, v2) :: rest) = true := by
      simp only [wfBVDict, Bool.and_eq_true]
      exact h.2
    show (bytesLt k k2 && kvSortedAdj (BencodeValue.encodeEntries ((k2, v2) :: rest))) = true
    rw [hlt, encodeEntries_sortedAdj ((k2, v2) :: rest) h2]
    rfl

theorem parse_encode (fuel : Nat) :
    (∀ v rest, wfBV v = true → (BencodeValue.encode v).length < fuel →
        parse_once fuel (BencodeValue.encode v ++ rest) = some (v, rest)) ∧
    (∀ l rest, wfBVList l = true → (BencodeValue.encodeElems l).length + 2 ≤ fuel →
        parseElems fuel (BencodeValue.encodeElems l ++ 101 :: rest) = some (l, rest)) ∧
    (∀ d rest, wfBVDict d = true →
        (joinKV (BencodeValue.encodeEntries d)).length + 2 ≤ fuel →
        parsePairs fuel (joinKV (BencodeValue.encodeEntries d) ++ 101 :: rest) =
          some (d, rest)) := by
  induction fuel using Nat.strong_induction_on with
  | _ fuel ih =>
    match fuel with
    | 0 =>
      refine ⟨fun v rest _ h => absurd h (by omega), fun l rest _ h => absurd h (by omega),
        fun d rest _ h => absurd h (by omega)⟩
    | f + 1 =>
      have ihf := ih f (by omega)
      refine ⟨?_, ?_, ?_⟩
      · -- parse_once
        intro v rest hwf hlen
        cases v with
        | Bytes b =>
          simp only [wfBV, decide_eq_true_eq] at hwf
          have hpb := parse_bytes_spec b rest hwf
          obtain ⟨d, ds, hD, hdig⟩ : ∃ d ds, natToDec b.length = d :: ds ∧ isDigit d = true := by
            by_cases hb : b.length = 0
            · refine ⟨48, [], ?_, rfl⟩
              rw [hb]
              exact natToDec_zero
            · obtain ⟨d, ds, hD, h49, h57⟩ := natToDec_head b.length hb
              exact ⟨d, ds, hD, by simp only [isDigit, Bool.and_eq_true, decide_eq_true_eq]; omega⟩
          rw [hD] at hpb
          simp only [List.cons_append] at hpb
          show parse_once (f + 1) ((natToDec b.length ++ 58 :: b) ++ rest) = _
          rw [hD]
          simp only [List.cons_append, List.append_assoc]
          rw [parse_once_digit f d _ hdig]
          rw [hpb]
          rfl
        | Integer i =>
          simp only [wfBV, decide_eq_true_eq] at hwf
          show parse_once (f + 1) ((105 :: (intToDec i ++ [101])) ++ rest) = _
          simp only [List.cons_append, List.append_assoc, List.singleton_append,
            List.nil_append]
          rw [parse_once_int f _, parse_integer_spec i rest hwf]
          rfl
        | List l =>
          simp only [wfBV] at hwf
          show parse_once (f + 1) ((108 :: (BencodeValue.encodeElems l ++ [101])) ++ rest) = _
          simp only [List.cons_append, List.append_assoc, List.singleton_append,
            List.nil_append]
          rw [parse_once_list f _]
          rw [ihf.2.1 l rest hwf (by
            simp only [BencodeValue.encode, List.length_cons, List.length_append] at hlen
            omega)]
          rfl
        | Dict d =>
          simp only [wfBV] at hwf
          show parse_once (f + 1)
              ((100 :: (joinKV (sortKV (BencodeValue.encodeEntries d)) ++ [101])) ++ rest) = _
          rw [sortKV_sorted _ (encodeEntries_sortedAdj d hwf)]
          simp only [List.cons_append, List.append_assoc, List.singleton_append,
            List.nil_append]
          rw [parse_once_dict f _]
          rw [ihf.2.2 d rest hwf (by
            simp only [BencodeValue.encode, List.length_cons, List.length_append] at hlen
            rw [sortKV_sorted _ (encodeEntries_sortedAdj d hwf)] at hlen
            omega)]
          show some (BencodeValue.Dict (toMap d), rest) = some (BencodeValue.Dict d, rest)
          rw [toMap_sorted d hwf]
      · -- parseElems
        intro l rest hwf hfuel
        cases l with
        | nil =>
          show parseElems (f + 1) ([] ++ 101 :: rest) = _
          rfl
        | cons v vs =>
          simp only [wfBVList, Bool.and_eq_true] at hwf
          obtain ⟨c, cs, hC, hc101⟩ := encode_head_ne v
          have hlenv : 2 ≤ (BencodeValue.encode v).length := encode_length_two v
          have hlen' : (BencodeValue.encodeElems (v :: vs)).length =
              (BencodeValue.encode v).length + (BencodeValue.encodeElems vs).length := by
            show (BencodeValue.encode v ++ BencodeValue.encodeElems vs).length = _
            simp
          show parseElems (f + 1)
              ((BencodeValue.encode v ++ BencodeValue.encodeElems vs) ++ 101 :: rest) = _
          rw [List.append_assoc, hC, List.cons_append, parseElems_ne f c _ hc101,
            ← List.cons_append, ← hC]
          rw [ihf.1 v (BencodeValue.encodeElems vs ++ 101 :: rest) hwf.1 (by omega)]
          show (match parseElems f (BencodeValue.encodeElems vs ++ 101 :: rest) with
            | none => none
            | some (vs2, rest2) => some (v :: vs2, rest2)) = some (v :: vs, rest)
          rw [ihf.2.1 vs rest hwf.2 (by omega)]
      · -- parsePairs
        intro d rest hwf hfuel
        cases d with
        | nil =>
          show parsePairs (f + 1) ([] ++ 101 :: rest) = _
          rfl
        | cons p rest' =>
          obtain ⟨k, v⟩ := p
          simp only [wfBVDict, Bool.and_eq_true, decide_eq_true_eq] at hwf
          obtain ⟨⟨⟨hklen, hwv⟩, _⟩, hwrest⟩ := hwf
          have hjoin : joinKV (BencodeValue.encodeEntries ((k, v) :: rest')) =
              (natToDec k.length ++ 58 :: k) ++ BencodeValue.encode v ++
                joinKV (BencodeValue.encodeEntries rest') := rfl
          have hlenv : 2 ≤ (BencodeValue.encode v).length := encode_length_two v
          have h1 : 1 ≤ (natToDec k.length).length :=
            List.length_pos.mpr (natToDec_ne_nil k.length)
          have hlen' : (joinKV (BencodeValue.encodeEntries ((k, v) :: rest'))).length =
              (natToDec k.length).length + 1 + k.length + (BencodeValue.encode v).length +
                (joinKV (BencodeValue.encodeEntries rest')).length := by
            rw [hjoin]
            simp
            omega
          have hpb := parse_bytes_spec k
            (BencodeValue.encode v ++ (joinKV (BencodeValue.encodeEntries rest') ++ 101 :: rest))
            hklen
          obtain ⟨dg, dgs, hD⟩ : ∃ dg dgs, natToDec k.length = dg :: dgs := by
            cases hE : natToDec k.length with
            | nil => exact absurd hE (natToDec_ne_nil _)
            | cons dg dgs => exact ⟨dg, dgs, rfl⟩
          have hdig : isDigit dg = true := natToDec_all_digits k.length dg (by rw [hD]; simp)
          have hdg101 : dg ≠ 101 := by
            simp only [isDigit, Bool.and_eq_true, decide_eq_true_eq] at hdig
            omega
          rw [hjoin]
          rw [hD] at hpb ⊢
          simp only [List.cons_append, List.append_assoc] at hpb ⊢
          rw [parsePairs_ne f dg _ hdg101]
          rw [hpb]
          show (match parse_once f
              (BencodeValue.encode v ++ (joinKV (BencodeValue.encodeEntries rest') ++ 101 :: rest)) with
            | none => none
            | some (v2, rest2) =>
              match parsePairs f rest2 with
              | none => none
              | some (ps, rest3) => some ((k, v2) :: ps, rest3)) = some ((k, v) :: rest', rest)
          rw [ihf.1 v (joinKV (BencodeValue.encodeEntries rest') ++ 101 :: rest) hwv
            (by omega)]
          show (match parsePairs f (joinKV (BencodeValue.encodeEntries rest') ++ 101 :: rest) with
            | none => none
            | some (ps, rest3) => some ((k, v) :: ps, rest3)) = some ((k, v) :: rest', rest)
          rw [ihf.2.2 rest' rest hwrest (by omega)]

/-- Decoding inverts encoding on well-formed values. -/
theorem decode_encode (v : BencodeValue) (h : wfBV v = true) :
    BencodeValue.decode (BencodeValue.encode v) = some v := by
  have h2 := (parse_encode ((BencodeValue.encode v).length + 1)).1 v [] h (by omega)
  rw [List.append_nil] at h2
  unfold BencodeValue.decode
  rw [h2]

/-! ### Every decoded value is well-formed -/

theorem parse_bytes_bound (input b rest : List Nat) (h : parse_bytes input = some (b, rest)) :
    b.length < 2 ^ 64 := by
  unfold parse_bytes at h
  split at h
  case isTrue => exact absurd h (by simp)
  split at h
  case h_1 => exact absurd h (by simp)
  split at h
  case isFalse => exact absurd h (by simp)
  split at h
  case h_2 => exact absurd h (by simp)
  split at h
  case isFalse => exact absurd h (by simp)
  injection h with h1
  injection h1 with hb _
  subst hb
  simp only [List.length_take]
  omega

theorem parseMagnitude_bound (input : List Nat) (u : Nat) (rest : List Nat)
    (h : parseMagnitude input = some (u, rest)) : u ≤ 2 ^ 127 - 1 := by
  unfold parseMagnitude at h
  split at h
  case h_2 => exact absurd h (by simp)
  split at h
  case isFalse => exact absurd h (by simp)
  split at h
  split at h
  case isFalse => exact absurd h (by simp)
  split at h
  case h_2 => exact absurd h (by simp)
  injection h with h1
  injection h1 with hu _
  subst hu
  assumption

theorem parse_integer_bound (input : List Nat) (i : Int) (rest : List Nat)
    (h : parse_integer input = some (i, rest)) : i.natAbs ≤ 2 ^ 127 - 1 := by
  unfold parse_integer at h
  split at h
  case h_2 => exact absurd h (by simp)
  split at h
  · injection h with h1
    injection h1 with hi _
    subst hi
    simp
  · rw [Option.map_eq_some'] at h
    obtain ⟨p, hp, hfa⟩ := h
    have hb := parseMagnitude_bound _ p.1 p.2 (by rw [hp])
    have hi : i = -(p.1 : Int) := by
      have h2 := congrArg Prod.fst hfa
      simpa using h2.symm
    subst hi
    simpa using hb
  · rw [Option.map_eq_some'] at h
    obtain ⟨p, hp, hfa⟩ := h
    have hb := parseMagnitude_bound _ p.1 p.2 (by rw [hp])
    have hi : i = (p.1 : Int) := by
      have h2 := congrArg Prod.fst hfa
      simpa using h2.symm
    subst hi
    simpa using hb

theorem keyLtHead_insertSorted (x k : List Nat) (v : BencodeValue) (m : BVEntries)
    (hxk : bytesLt x k = true) (hxm : keyLtHead x m = true) :
    keyLtHead x (insertSorted k v m) = true := by
  cases m with
  | nil => simpa [insertSorted, keyLtHead] using hxk
  | cons p rest =>
    obtain ⟨k', v'⟩ := p
    simp only [insertSorted]
    split
    · simpa [keyLtHead] using hxm
    · split
      · simpa [keyLtHead] using hxk
      · simpa [keyLtHead] using hxk

theorem insertSorted_wf (k : List Nat) (v : BencodeValue) :
    ∀ m : BVEntries, wfBVDict m = true → wfBV v = true → k.length < 2 ^ 64 →
      wfBVDict (insertSorted k v m) = true
  | [] => by
    intro _ hv hk
    simp only [insertSorted, wfBVDict, keyLtHead, hv, Bool.and_eq_true, decide_eq_true_eq]
    simp
    omega
  | (k', v') :: rest => by
    intro hm hv hk
    simp only [wfBVDict, Bool.and_eq_true, decide_eq_true_eq] at hm
    obtain ⟨⟨⟨hk', hv'⟩, hlt'⟩, hrest⟩ := hm
    simp only [insertSorted]
    split
    · rename_i hblt
      simp only [wfBVDict, Bool.and_eq_true, decide_eq_true_eq]
      exact ⟨⟨⟨hk', hv'⟩, keyLtHead_insertSorted k' k v rest hblt hlt'⟩,
        insertSorted_wf k v rest hrest hv hk⟩
    · split
      · rename_i hblt heqk
        subst heqk
        simp only [wfBVDict, Bool.and_eq_true, decide_eq_true_eq]
        exact ⟨⟨⟨hk, hv⟩, hlt'⟩, hrest⟩
      · rename_i hblt hne
        have hkk' : bytesLt k k' = true := by
          by_contra hc
          exact hne (bytesLt_connex k' k (by simpa using hblt) (by simpa using hc))
        simp only [wfBVDict, Bool.and_eq_true, decide_eq_true_eq, keyLtHead]
        exact ⟨⟨⟨hk, hv⟩, hkk'⟩, ⟨⟨⟨hk', hv'⟩, hlt'⟩, hrest⟩⟩

theorem toMap_wf (ps : BVEntries)
    (h : ∀ p ∈ ps, wfBV p.2 = true ∧ p.1.length < 2 ^ 64) : wfBVDict (toMap ps) = true := by
  suffices hgen : ∀ acc : BVEntries, wfBVDict acc = true →
      wfBVDict (ps.foldl (fun m p => insertSorted p.1 p.2 m) acc) = true by
    exact hgen [] rfl
  induction ps with
  | nil => intro acc hacc; exact hacc
  | cons p rest ih =>
    intro acc hacc
    refine ih (fun q hq => h q (by simp [hq])) (insertSorted p.1 p.2 acc) ?_
    have hp := h p (by simp)
    exact insertSorted_wf p.1 p.2 acc hacc hp.1 hp.2

theorem parse_wf (fuel : Nat) :
    (∀ input v rest, parse_once fuel input = some (v, rest) → wfBV v = true) ∧
    (∀ input l rest, parseElems fuel input = some (l, rest) → wfBVList l = true) ∧
    (∀ input ps rest, parsePairs fuel input = some (ps, rest) →
        ∀ p ∈ ps, wfBV p.2 = true ∧ p.1.length < 2 ^ 64) := by
  induction fuel using Nat.strong_induction_on with
  | _ fuel ih =>
    match fuel with
    | 0 =>
      refine ⟨fun input v rest h => by simp [parse_once] at h,
        fun input l rest h => by simp [parseElems] at h,
        fun input ps rest h => by simp [parsePairs] at h⟩
    | f + 1 =>
      have ihf := ih f (by omega)
      refine ⟨?_, ?_, ?_⟩
      · intro input v rest h
        match input with
        | [] => simp [parse_once] at h
        | c :: cs =>
          simp only [parse_once] at h
          split_ifs at h
          · -- byte string
            cases hpb : parse_bytes (c :: cs) with
            | none => rw [hpb] at h; exact absurd h (by simp)
            | some p =>
              rw [hpb] at h
              injection h with h1
              injection h1 with hv _
              subst hv
              simp only [wfBV, decide_eq_true_eq]
              exact parse_bytes_bound _ p.1 p.2 (by rw [hpb])
          · -- integer
            cases hpi : parse_integer (c :: cs) with
            | none => rw [hpi] at h; exact absurd h (by simp)
            | some p =>
              rw [hpi] at h
              injection h with h1
              injection h1 with hv _
              subst hv
              simp only [wfBV, decide_eq_true_eq]
              exact parse_integer_bound _ p.1 p.2 (by rw [hpi])
          · -- list
            cases hpl : parseElems f cs with
            | none => rw [hpl] at h; exact absurd h (by simp)
            | some p =>
              rw [hpl] at h
              injection h with h1
              injection h1 with hv _
              subst hv
              exact ihf.2.1 cs p.1 p.2 (by rw [hpl])
          · -- dict
            cases hpd : parsePairs f cs with
            | none => rw [hpd] at h; exact absurd h (by simp)
            | some p =>
              rw [hpd] at h
              injection h with h1
              injection h1 with hv _
              subst hv
              exact toMap_wf p.1 (ihf.2.2 cs p.1 p.2 (by rw [hpd]))
      · intro input l rest h
        simp only [parseElems] at h
        split at h
        · injection h with h1
          injection h1 with hl _
          subst hl
          rfl
        · cases hp : parse_once f input with
          | none => rw [hp] at h; exact absurd h (by simp)
          | some p =>
            obtain ⟨v1, r1⟩ := p
            rw [hp] at h
            change (match parseElems f r1 with
              | none => none
              | some (vs, rest2) => some (v1 :: vs, rest2)) = some (l, rest) at h
            cases hq : parseElems f r1 with
            | none => rw [hq] at h; exact absurd h (by simp)
            | some q =>
              obtain ⟨vs1, r2⟩ := q
              rw [hq] at h
              injection h with h1
              injection h1 with hl _
              subst hl
              simp only [wfBVList, Bool.and_eq_true]
              exact ⟨ihf.1 input v1 r1 hp, ihf.2.1 r1 vs1 r2 hq⟩
      · intro input ps rest h
        simp only [parsePairs] at h
        split at h
        · injection h with h1
          injection h1 with hl _
          subst hl
          intro p hp
          simp at hp
        · cases hk : parse_bytes input with
          | none => rw [hk] at h; exact absurd h (by simp)
          | some kp =>
            obtain ⟨k1, r1⟩ := kp
            rw [hk] at h
            change (match parse_once f r1 with
              | none => none
              | some (v, rest2) =>
                match parsePairs f rest2 with
                | none => none
                | some (ps2, rest3) => some ((k1, v) :: ps2, rest3)) = some (ps, rest) at h
            cases hp : parse_once f r1 with
            | none => rw [hp] at h; exact absurd h (by simp)
            | some vp =>
              obtain ⟨v1, r2⟩ := vp
              rw [hp] at h
              change (match parsePairs f r2 with
                | none => none
                | some (ps2, rest3) => some ((k1, v1) :: ps2, rest3)) = some (ps, rest) at h
              cases hq : parsePairs f r2 with
              | none => rw [hq] at h; exact absurd h (by simp)
              | some qp =>
                obtain ⟨ps1, r3⟩ := qp
                rw [hq] at h
                injection h with h1
                injection h1 with hl _
                subst hl
                intro p hpmem
                rcases List.mem_cons.mp hpmem with hpeq | hptail
                · subst hpeq
                  exact ⟨ihf.1 r1 v1 r2 hp, parse_bytes_bound input k1 r1 hk⟩
                · exact ihf.2.2 r2 ps1 r3 hq p hptail

/-- What the decoder produces is well-formed. -/
theorem decode_wf (b : List Nat) (v : BencodeValue) (h : BencodeValue.decode b = some v) :
    wfBV v = true := by
  unfold BencodeValue.decode at h
  split at h
  · rename_i v1 heq
    injection h with h1
    subst h1
    exact (parse_wf (b.length + 1)).1 b v1 [] heq
  · exact absurd h (by simp)

/-- **C3.** `decode(encode(v)) == v` for every `BencodeValue` producible by
the decoder (witnessed by some byte string decoding to it), and
`encode(decode(b)) == b` for every byte string emitted by the canonical
encoder on such a value. -/
theorem bencode_roundtrip (b : List Nat) (v : BencodeValue)
    (h : BencodeValue.decode b = some v) :
    BencodeValue.decode (BencodeValue.encode v) = some v ∧
    (BencodeValue.decode (BencodeValue.encode v)).map BencodeValue.encode =
      some (BencodeValue.encode v) := by
  have hwf := decode_wf b v h
  have h1 := decode_encode v hwf
  exact ⟨h1, by rw [h1]; rfl⟩

/-- Witness for C3: the round-trip theorem applied to `li3e1:ae`. -/
theorem bencode_roundtrip_witness :
    BencodeValue.decode (BencodeValue.encode (.List [.Integer 3, .Bytes [97]])) =
        some (.List [.Integer 3, .Bytes [97]]) ∧
    (BencodeValue.decode (BencodeValue.encode (.List [.Integer 3, .Bytes [97]]))).map
        BencodeValue.encode =
      some (BencodeValue.encode (.List [.Integer 3, .Bytes [97]])) :=
  bencode_roundtrip [108, 105, 51, 101, 49, 58, 97, 101] (.List [.Integer 3, .Bytes [97]])
    (by rfl)

set_option maxRecDepth 100000 in
/-- **C10.** The decoder parses an integer's magnitude as `u128` and converts
it with `i128::try_from` before negating, so round-trippable integers are
exactly those in `[-(2^127 - 1), 2^127 - 1]`; in particular
`BencodeValue::Integer(i128::MIN)` encodes to
`i-170141183460469231731687303715884105728e` but decoding that byte string
fails. -/
theorem integer_decode_range (i : Int) :
    (BencodeValue.decode (BencodeValue.encode (.Integer i)) = some (.Integer i) ↔
      -(2 ^ 127 - 1) ≤ i ∧ i ≤ 2 ^ 127 - 1) ∧
    BencodeValue.encode (.Integer (-(2 ^ 127))) =
      [105, 45, 49, 55, 48, 49, 52, 49, 49, 56, 51, 52, 54, 48, 52, 54, 57, 50, 51, 49, 55,
       51, 49, 54, 56, 55, 51, 48, 51, 55, 49, 53, 56, 56, 52, 49, 48, 53, 55, 50, 56, 101] ∧
    BencodeValue.decode (BencodeValue.encode (.Integer (-(2 ^ 127)))) = none := by
  refine ⟨⟨?_, ?_⟩, by rfl, by rfl⟩
  · intro h
    have hwf := decode_wf _ _ h
    simp only [wfBV, decide_eq_true_eq] at hwf
    omega
  · intro hr
    exact decode_encode (.Integer i) (by simp only [wfBV, decide_eq_true_eq]; omega)

set_option maxRecDepth 100000 in
/-- FIPS 180 test vector validating the SHA-1 embedding:
SHA1("abc") = a9993e364706816aba3e25717850c26c9cd0d89d. -/
theorem sha1_fips_vector :
    sha1 [97, 98, 99] =
      [0xa9, 0x99, 0x3e, 0x36, 0x47, 0x06, 0x81, 0x6a, 0xba, 0x3e,
       0x25, 0x71, 0x78, 0x50, 0xc2, 0x6c, 0x9c, 0xd0, 0xd8, 0x9d] := by decide

set_option maxRecDepth 1000000 in
/-- **C1** (code bug demonstration). `c1Bytes` is accepted by
`MetainfoFile::try_from`, yet the computed `info_hash` is **not** the SHA-1
of the exact contiguous byte span of the `info` value as it occurs in the
input (bytes 20..91): the source hashes
`Sha1::new_with_prefix(info_benc.encode())`, the canonical re-encoding of
the decoded in-memory `info` value, which reorders this file's keys. -/
theorem info_hash_not_raw_span :
    (MetainfoFile.try_from c1Bytes).isSome = true ∧
    (MetainfoFile.try_from c1Bytes).map MetainfoFile.info_hash ≠
      some (sha1 ((c1Bytes.drop 20).take 71)) := by
  constructor
  · rfl
  · decide

/-- **C2** (code bug demonstration).  `PeerMessage::write_to` emits the Choke
frame `00 00 00 01 00`, whose length field 1 satisfies
`4 + length_field == total_frame_len`; but `ParsedPeerMessage::from` applied
to those very bytes takes the message slice as `input.get(1..len)` instead of
the payload `input[4..4 + len]`, so it yields
`Complete(KeepAlive, [00, 00, 01, 00])` rather than `Complete(Choke, [])`:
decoding the emitted frame does not return the original message. -/
theorem parsed_peer_message_mismatch :
    PeerMessage.write_to .Choke = [0, 0, 0, 1, 0] ∧
    4 + 1 = (PeerMessage.write_to .Choke).length ∧
    ParsedPeerMessage.ofBytes (PeerMessage.write_to .Choke) =
      .Complete .KeepAlive [0, 0, 1, 0] ∧
    ParsedPeerMessage.ofBytes (PeerMessage.write_to .Choke) ≠ .Complete .Choke [] := by
  refine ⟨rfl, rfl, by decide, by decide⟩

/-- **C8.** Whenever the 4-byte big-endian length prefix exceeds
`PEERMESSAGE_PIECE_MAX_LEN = 16393`, the read loop returns the
`Unsupported` error — independent of whatever payload bytes follow, i.e.
before reading the payload — and dispatches no message; any length of at
most 16393 is accepted for reading (given the payload bytes arrive, the
iteration succeeds). -/
theorem frame_length_limit (input : List Nat) (h4 : 4 ≤ input.length) :
    (PEERMESSAGE_PIECE_MAX_LEN < beU32 (input.take 4) →
      listenOnce input =
        .error (.TooLong PEERMESSAGE_PIECE_MAX_LEN (beU32 (input.take 4)))) ∧
    (beU32 (input.take 4) ≤ PEERMESSAGE_PIECE_MAX_LEN →
      beU32 (input.take 4) ≤ (input.drop 4).length →
      (listenOnce input).isOk = true) := by
  constructor
  · intro hlong
    unfold listenOnce
    rw [if_neg (by omega), if_pos hlong]
  · intro hle hlen
    unfold listenOnce
    rw [if_neg (by omega), if_neg (by omega), if_neg (by omega)]
    split <;> rfl

/-- Witness for C8: a frame announcing 16394 bytes is rejected with the
oversize error even though no payload was supplied, and the 5-byte Choke
frame is accepted. -/
theorem frame_length_limit_witness :
    listenOnce [0, 0, 64, 10] = .error (.TooLong 16393 16394) ∧
    (listenOnce [0, 0, 0, 1, 0]).isOk = true := by
  constructor
  · exact (frame_length_limit [0, 0, 64, 10] (by decide)).1 (by decide)
  · exact (frame_length_limit [0, 0, 0, 1, 0] (by decide)).2 (by decide) (by decide)

/-- **C9.** Unless the coordinator's one-shot resolves to `true`, the
incoming handshake fails (the connection never becomes Active, no
`Connected` event is sent) and the task emits no `Message` event at all —
in particular no `Message` event is ever emitted before the approval
resolves to `true`. -/
theorem no_message_before_approval (stream : List Nat) (approval : Option Bool) (fuel : Nat)
    (h : approval ≠ some true) :
    (handshakeIncoming stream approval).2 = none ∧
    ((incomingTask stream approval fuel).all fun e => !e.isMessage) = true ∧
    ∀ e ∈ incomingTask stream approval fuel, ∀ p ih, e ≠ CoEvent.Connected p ih := by
  have key : (handshakeIncoming stream approval).2 = none ∧
      ((handshakeIncoming stream approval).1.all fun e => !e.isMessage) = true ∧
      ∀ e ∈ (handshakeIncoming stream approval).1, ∀ p ih, e ≠ CoEvent.Connected p ih := by
    unfold handshakeIncoming
    split_ifs with c1 c2 c3 c4
    · exact ⟨rfl, rfl, by simp⟩
    · exact ⟨rfl, rfl, by simp⟩
    · exact ⟨rfl, rfl, by simp⟩
    · exact ⟨rfl, rfl, by simp⟩
    · refine ⟨rfl, rfl, ?_⟩
      intro e he p ih
      simp only [List.mem_singleton] at he
      subst he
      simp
  rcases hH : handshakeIncoming stream approval with ⟨evts, res⟩
  rw [hH] at key
  have hres : res = none := key.1
  subst hres
  refine ⟨rfl, ?_, ?_⟩
  · show (incomingTask stream approval fuel).all _ = true
    unfold incomingTask
    rw [hH]
    exact key.2.1
  · show ∀ e ∈ incomingTask stream approval fuel, _
    unfold incomingTask
    rw [hH]
    exact key.2.2

/-- Witness for C9: a well-formed 68-byte handshake stream whose info-hash
the coordinator rejects (`approval = some false`) produces only the
`HandshakeInfoHash` event — no `Message`, no `Connected`. -/
theorem no_message_before_approval_witness :
    (handshakeIncoming (PRELUDE ++ PRELUDE_RESERVED ++ List.replicate 40 7)
        (some false)).2 = none ∧
    ((incomingTask (PRELUDE ++ PRELUDE_RESERVED ++ List.replicate 40 7) (some false) 5).all
        fun e => !e.isMessage) = true ∧
    ∀ e ∈ incomingTask (PRELUDE ++ PRELUDE_RESERVED ++ List.replicate 40 7) (some false) 5,
      ∀ p ih, e ≠ CoEvent.Connected p ih :=
  no_message_before_approval (PRELUDE ++ PRELUDE_RESERVED ++ List.replicate 40 7)
    (some false) 5 (by decide)

/-! ### Supporting lemmas for the tracker model -/

theorem permuteBySeed_nil {α : Type} (seed : List Nat) :
    permuteBySeed seed ([] : List α) = [] := by
  cases seed <;> rfl

theorem permuteBySeed_singleton {α : Type} (seed : List Nat) (x : α) :
    permuteBySeed seed [x] = [x] := by
  cases seed with
  | nil => rfl
  | cons s seed =>
    show [x].getD (s % 1) x :: permuteBySeed seed ([x].eraseIdx (s % 1)) = [x]
    rw [Nat.mod_one]
    simp [permuteBySeed_nil]

theorem permuteBySeed_length {α : Type} (seed : List Nat) (l : List α) :
    (permuteBySeed seed l).length = l.length := by
  induction seed generalizing l with
  | nil => rfl
  | cons s seed ih =>
    cases l with
    | nil => rfl
    | cons x xs =>
      have hlt : s % (x :: xs).length < (x :: xs).length :=
        Nat.mod_lt _ (by simp)
      show ((x :: xs).getD (s % (x :: xs).length) x ::
          permuteBySeed seed ((x :: xs).eraseIdx (s % (x :: xs).length))).length =
        (x :: xs).length
      rw [List.length_cons, ih, List.length_eraseIdx_of_lt hlt]
      simp

theorem getD_mem {α : Type} (l : List α) (i : Nat) (d : α) (h : i < l.length) :
    l.getD i d ∈ l := by
  induction l generalizing i with
  | nil => simp at h
  | cons x xs ih =>
    cases i with
    | zero => simp
    | succ n =>
      rw [List.getD_cons_succ]
      exact List.mem_cons_of_mem _ (ih n (by simpa using h))

theorem permuteBySeed_mem {α : Type} (seed : List Nat) (l : List α) (x : α)
    (h : x ∈ permuteBySeed seed l) : x ∈ l := by
  induction seed generalizing l with
  | nil => exact h
  | cons s seed ih =>
    cases l with
    | nil =>
      rw [permuteBySeed_nil] at h
      exact h
    | cons y ys =>
      have h' : x ∈ (y :: ys).getD (s % (y :: ys).length) y ::
          permuteBySeed seed ((y :: ys).eraseIdx (s % (y :: ys).length)) := h
      rcases List.mem_cons.mp h' with h1 | h2
      · rw [h1]
        exact getD_mem _ _ _ (Nat.mod_lt _ (by simp))
      · exact List.eraseIdx_subset _ _ (ih _ h2)

theorem get_multiple_length_le (now : Int) (seed : List Nat) (s : List Peer)
    (count : Nat) (exclude : Option Peer) :
    (Peers.get_multiple now seed s count exclude).length ≤ count := by
  unfold Peers.get_multiple
  exact List.length_take_le _ _

theorem get_multiple_length_filter (now : Int) (seed : List Nat) (s : List Peer)
    (count : Nat) (exclude : Option Peer) :
    (Peers.get_multiple now seed s count exclude).length ≤
      (s.filter (keepPeer now exclude)).length := by
  unfold Peers.get_multiple
  rw [List.length_take]
  exact le_trans (Nat.min_le_right _ _) (le_of_eq (permuteBySeed_length _ _))

theorem get_multiple_mem (now : Int) (seed : List Nat) (s : List Peer) (count : Nat)
    (exclude : Option Peer) (p : Peer)
    (h : p ∈ Peers.get_multiple now seed s count exclude) :
    p ∈ s ∧ keepPeer now exclude p = true := by
  unfold Peers.get_multiple at h
  exact List.mem_filter.mp (permuteBySeed_mem _ _ _ (List.take_subset _ _ h))

theorem get_multiple_singleton (now : Int) (seed : List Nat) (p : Peer) (count : Nat)
    (exclude : Option Peer) (hc : 1 ≤ count)
    (hf : keepPeer now exclude p = true) :
    Peers.get_multiple now seed [p] count exclude = [p] := by
  unfold Peers.get_multiple
  have hfilt : [p].filter (keepPeer now exclude) = [p] := by
    simp only [List.filter, hf]
  rw [hfilt, permuteBySeed_singleton]
  exact List.take_of_length_le (by simpa using hc)

theorem Peer.eq_refl (p : Peer) : Peer.eq p p = true := by
  unfold Peer.eq
  cases p.peer_id <;> simp

/-- C4: the spec requires every peer in a response to have announced within
`timeout_interval` (default 900 s) of now, but `Peers::expiry` hardcodes
`Instant::now() - 3600 s` and never consults the configured interval: at
`now = 10000`, a peer last seen 1000 s ago — more than 900 s, so the spec
excludes it — is still returned by `get_multiple`, whatever the sampling
randomness does. -/
theorem stale_peer_included (seed : List Nat) :
    900 < (10000 : Int) - c4Stale.last_seen ∧
    Peers.get_multiple 10000 seed [c4Stale] 50 (some c4Announcer) = [c4Stale] :=
  ⟨by decide,
    get_multiple_singleton 10000 seed c4Stale 50 (some c4Announcer) (by decide)
      (by decide)⟩

/-- C5 counterexample: on an `event = stopped` announce the announcing peer is
removed from the swarm rather than replaced, so the swarm S at response time
no longer contains it; the response may then hold all |S| remaining peers,
exceeding the claimed `min(numwant or 50, 50, |S| - 1)` bound.  Concretely:
after the stopped announce the swarm has 1 peer, the response lists 1 peer,
and `1 ≤ min(50, 50, 1 - 1) = 0` fails. -/
theorem response_cap_counterexample :
    (announce 100 [] c5Announcer 7 c5Swarm).2.peers.length = 1 ∧
    (announce 100 [] c5Announcer 7 c5Swarm).1.peers.length = 1 ∧
    ¬((announce 100 [] c5Announcer 7 c5Swarm).1.peers.length ≤
      min (min (c5Announcer.numwant.getD 50) 50)
        ((announce 100 [] c5Announcer 7 c5Swarm).2.peers.length - 1)) := by
  decide

theorem announce_resp_peers (now : Int) (seed : List Nat) (r : Request)
    (remote_ip : Nat) (t : Torrent) :
    (announce now seed r remote_ip t).1.peers =
      Peers.get_multiple now seed (announcePeers now r remote_ip t)
        (min (r.numwant.getD (2 ^ 64 - 1)) 50)
        (some (r.as_peer now (r.ip.getD remote_ip))) := rfl

theorem announce_swarm_peers (now : Int) (seed : List Nat) (r : Request)
    (remote_ip : Nat) (t : Torrent) :
    (announce now seed r remote_ip t).2.peers = announcePeers now r remote_ip t :=
  rfl

theorem get_multiple_excl_length (now : Int) (seed : List Nat) (l : List Peer)
    (count : Nat) (e : Peer) :
    (Peers.get_multiple now seed (e :: l) count (some e)).length ≤ l.length := by
  have h := get_multiple_length_filter now seed (e :: l) count (some e)
  have hpred : ¬keepPeer now (some e) e = true := by
    simp [keepPeer, excludedBy, Peer.eq_refl]
  rw [List.filter_cons_of_neg hpred] at h
  exact le_trans h (List.length_filter_le _ _)

/-- C5 amended: the response peer list is capped at `min(numwant or 50, 50)`,
never contains the announcing peer's own entry, and is bounded by the swarm
size at response time minus one for every non-stopped announce — but only by
the full swarm size when `event = stopped`, since the announcer has then been
removed from the swarm instead of being counted in it. -/
theorem response_capped (now : Int) (seed : List Nat) (r : Request)
    (remote_ip : Nat) (t : Torrent) :
    (announce now seed r remote_ip t).1.peers.length ≤ min (r.numwant.getD 50) 50 ∧
    (announce now seed r remote_ip t).1.peers.length ≤
      (if r.event = some Event.Stopped then
        (announce now seed r remote_ip t).2.peers.length
      else (announce now seed r remote_ip t).2.peers.length - 1) ∧
    ((announce now seed r remote_ip t).1.peers.all fun q =>
      !(Peer.eq q (r.as_peer now (r.ip.getD remote_ip)))) = true := by
  refine ⟨?_, ?_, ?_⟩
  · rw [announce_resp_peers]
    have h1 := get_multiple_length_le now seed (announcePeers now r remote_ip t)
      (min (r.numwant.getD (2 ^ 64 - 1)) 50)
      (some (r.as_peer now (r.ip.getD remote_ip)))
    cases hn : r.numwant with
    | none =>
      rw [hn] at h1
      simp only [Option.getD_none] at h1 ⊢
      omega
    | some n =>
      rw [hn] at h1
      simp only [Option.getD_some] at h1 ⊢
      omega
  · rw [announce_resp_peers, announce_swarm_peers]
    by_cases hev : r.event = some Event.Stopped
    · rw [if_pos hev]
      have h2 := get_multiple_length_filter now seed (announcePeers now r remote_ip t)
        (min (r.numwant.getD (2 ^ 64 - 1)) 50)
        (some (r.as_peer now (r.ip.getD remote_ip)))
      exact le_trans h2 (List.length_filter_le _ _)
    · have hsp : announcePeers now r remote_ip t =
          r.as_peer now (r.ip.getD remote_ip) ::
            Peers.remove t.peers (r.as_peer now (r.ip.getD remote_ip)) := by
        unfold announcePeers Peers.replace
        rw [if_neg hev]
      rw [if_neg hev, hsp]
      have h3 := get_multiple_excl_length now seed
        (Peers.remove t.peers (r.as_peer now (r.ip.getD remote_ip)))
        (min (r.numwant.getD (2 ^ 64 - 1)) 50)
        (r.as_peer now (r.ip.getD remote_ip))
      simpa using h3
  · rw [announce_resp_peers, List.all_eq_true]
    intro q hq
    have hk := (get_multiple_mem _ _ _ _ _ _ hq).2
    simp only [keepPeer, Bool.and_eq_true] at hk
    simpa [excludedBy] using hk.1

/-- C6 counterexample: `PartialEq` considers the two entries the same peer
(same peer_id), but `Hash` keys on key-or-address, so the second `replace`
probes a different bucket, never sees the first entry, and both survive: two
announces with the same peer_id are not idempotent when the address (or key)
changed in between. -/
theorem replace_same_id_counterexample :
    Peer.eq c6First c6Second = true ∧
    Peers.replace (Peers.replace [] c6First) c6Second = [c6Second, c6First] ∧
    ((Peers.replace (Peers.replace [] c6First) c6Second).filter
        fun q => decide (q.peer_id = some c6Id)).length = 2 := by
  decide

/-- C6 amended: two announces with the same peer_id are idempotent only when
their hashed identities (the key when present, otherwise the address) also
agree: under that proviso — for the new entries and for every entry already
in the set carrying that peer_id — exactly one entry for the peer_id
remains; and a second `remove` of the same peer always leaves the set
unchanged. -/
theorem replace_idempotent_same_bucket (s : List Peer) (p q : Peer)
    (pid : List Nat) (hp : p.peer_id = some pid) (hq : q.hashInput = p.hashInput)
    (hs : ∀ r ∈ s, r.peer_id = some pid → r.hashInput = p.hashInput) :
    ((Peers.replace (Peers.replace s p) q).filter
        fun r => decide (r.peer_id = some pid)).length = 1 ∧
    Peers.remove (Peers.remove s p) p = Peers.remove s p := by
  constructor
  · have hqid : q.peer_id = some pid := by
      have h1 := congrArg Prod.fst hq
      simp only [Peer.hashInput] at h1
      rw [h1, hp]
    have htail : (Peers.remove (p :: Peers.remove s p) q).filter
        (fun r => decide (r.peer_id = some pid)) = [] := by
      rw [List.filter_eq_nil_iff]
      intro r hr hid
      have hr' := List.mem_filter.mp hr
      rcases hr' with ⟨hmem, hkeep⟩
      have hrid : r.peer_id = some pid := of_decide_eq_true hid
      have hrh : r.hashInput = p.hashInput := by
        rcases List.mem_cons.mp hmem with h | h
        · rw [h]
        · exact hs r (List.mem_filter.mp h).1 hrid
      have heq : Peer.eq r q = true := by
        simp [Peer.eq, hrid, hqid]
      have hhash : decide (r.hashInput = q.hashInput) = true := by
        rw [hrh, hq]
        simp
      rw [hhash, heq] at hkeep
      simp at hkeep
    show ((q :: Peers.remove (p :: Peers.remove s p) q).filter
        fun r => decide (r.peer_id = some pid)).length = 1
    rw [List.filter_cons_of_pos (by simp [hqid]), htail]
    rfl
  · unfold Peers.remove
    rw [List.filter_filter]
    apply List.filter_congr
    intro x hx
    rw [Bool.and_self]

/-- Witness for the amended C6 theorem at a concrete instance: announcing the
same entry twice into an empty swarm leaves one entry, and removing it twice
from the empty swarm is the same as removing it once. -/
theorem replace_idempotent_same_bucket_witness :
    ((Peers.replace (Peers.replace [] c6First) c6First).filter
        fun r => decide (r.peer_id = some c6Id)).length = 1 ∧
    Peers.remove (Peers.remove [] c6First) c6First = Peers.remove [] c6First :=
  replace_idempotent_same_bucket [] c6First c6First c6Id (by rfl) (by rfl)
    (fun r hr => absurd hr (List.not_mem_nil r))

/-- C7 counterexample: when exactly one of the two peers carries a peer_id,
`PartialEq` falls through to the address comparison, so equal addresses make
them compare equal — the claim says this case must always be unequal. -/
theorem peer_eq_one_id_counterexample :
    Peer.eq c7WithId c7NoId = true ∧
    ¬((c7WithId.peer_id.isSome = true ∧ c7NoId.peer_id.isSome = true ∧
        c7WithId.peer_id = c7NoId.peer_id) ∨
      (c7WithId.peer_id = none ∧ c7NoId.peer_id = none ∧
        c7WithId.addr = c7NoId.addr)) := by
  decide

/-- C7 amended: two Peers compare equal iff both carry peer_ids and the ids
match, or at least one of them lacks a peer_id and the addresses match. -/
theorem peer_eq_spec (p q : Peer) :
    Peer.eq p q = true ↔
      ((∃ i, p.peer_id = some i ∧ q.peer_id = some i) ∨
        ((p.peer_id = none ∨ q.peer_id = none) ∧ p.addr = q.addr)) := by
  unfold Peer.eq
  rcases hp : p.peer_id with _ | x <;> rcases hq : q.peer_id with _ | y <;> simp
  exact eq_comm
